import Mathlib

/-!
File metadata translation and cluster configuration comparison.

A shallow embedding of `cmd/syncthing/util.go`:

* `fileFromFileInfo` / `fileInfoFromFile` translate one file record between
  the wire form (`protocol.FileInfo`) and the local form (`scanner.File`);
* `cmMap` / `compareClusterConfig` normalise two cluster configuration
  messages and look for the first discrepancy between them.

Conventions of the embedding.

* Go's `uint32` flag words are natural numbers. Only `&`, `|` and `&^` are
  applied to them, none of which can leave the 32-bit range, so no reduction
  modulo `2^32` is needed.
* Go's `int64` values are integers; the one place where the code adds
  (`offset += int64(b.Size)`) is reduced with `wrapInt64`.
* A Go slice is a list (a `nil` slice and an empty slice are the same list).
* `filepath.Separator` depends on the operating system and is a parameter
  (`sep`): it is the slash on Unix and the backslash on Windows.
* `protocol.FlagInvalid` and `protocol.FlagShareBits` are declared in the
  `protocol` package, which is not part of the sources at hand; they are
  parameters as well.
-/

namespace Syncthing

/-! Data model -/

/-- Modelled from the spec: `scanner.Block` is declared in the `scanner`
package (not in the sources at hand). The spec gives it an offset (int64), a
size (a 32-bit integer) and a hash (bytes). -/
structure Block where
  Offset : Int
  Size : Int
  Hash : List Nat
deriving DecidableEq

/-- Modelled from the spec: `protocol.BlockInfo` is declared in the `protocol`
package (not in the sources at hand). The spec gives it a size and a hash, and
no offset. -/
structure BlockInfo where
  Size : Int
  Hash : List Nat
deriving DecidableEq

/-- Modelled from the spec: `scanner.File` is declared in the `scanner`
package (not in the sources at hand); the fields are the ones that
`fileFromFileInfo` fills in. -/
structure File where
  Name : String
  Size : Int
  Flags : Nat
  Modified : Int
  Version : Nat
  Blocks : List Block
  Suppressed : Bool
deriving DecidableEq

/-- Modelled from the spec: `protocol.FileInfo` is declared in the `protocol`
package (not in the sources at hand); the fields are the ones that
`fileInfoFromFile` fills in. -/
structure FileInfo where
  Name : String
  Flags : Nat
  Modified : Int
  Version : Nat
  Blocks : List BlockInfo
deriving DecidableEq

/-! Machine arithmetic and library functions -/

/-- The value of an integer once stored in a Go `int64` (two's complement
wrap-around). -/
def wrapInt64 (x : Int) : Int := (x + 2 ^ 63) % 2 ^ 64 - 2 ^ 63

/-- The values an `int64` can hold. -/
def isInt64 (x : Int) : Prop := -(2 ^ 63) ≤ x ∧ x < 2 ^ 63

instance (x : Int) : Decidable (isInt64 x) := by unfold isInt64; infer_instance

/-- Go's bit-clear operator `a &^ b` on unsigned words: the bits of `a` that
are not bits of `b`. -/
def bitClear (a b : Nat) : Nat := a ^^^ (a &&& b)

/-- Modelled from the spec: `protocol.FlagInvalid` is declared in the
`protocol` package (not in the sources at hand). The spec says that one bit of
the flags is reserved as the invalid bit; `bit` is its position. -/
def FlagInvalid (bit : Nat) : Nat := 1 <<< bit

/-- The slash, which separates the components of a wire name. -/
def slash : Char := '/'

/-- Go's `strings.Replace(s, string(old), string(new), -1)` for one-byte
patterns. -/
def replaceAll (old new : Char) (s : String) : String :=
  ⟨s.data.map (fun c => if c = old then new else c)⟩

/-- Go's `filepath.FromSlash`: every slash becomes the separator; the path is
returned untouched when the separator is the slash. -/
def FromSlash (sep : Char) (path : String) : String :=
  if sep = slash then path else replaceAll slash sep path

/-- Go's `filepath.ToSlash`: every separator becomes a slash; the path is
returned untouched when the separator is the slash. -/
def ToSlash (sep : Char) (path : String) : String :=
  if sep = slash then path else replaceAll sep slash path

/-! The translator -/

/-- The loop of `fileFromFileInfo`: the local blocks of the wire blocks `bs`
when the running offset is `offset`, and the offset after the last block. -/
def localBlocks : List BlockInfo → Int → List Block × Int
  | [], offset => ([], offset)
  | b :: rest, offset =>
    let r := localBlocks rest (wrapInt64 (offset + b.Size))
    ({ Offset := offset, Size := b.Size, Hash := b.Hash } :: r.1, r.2)

/-- The function `fileFromFileInfo` of `util.go`. -/
def fileFromFileInfo (sep : Char) (bit : Nat) (f : FileInfo) : File :=
  let r := localBlocks f.Blocks 0
  { Name := FromSlash sep f.Name
    Size := r.2
    Flags := bitClear f.Flags (FlagInvalid bit)
    Modified := f.Modified
    Version := f.Version
    Blocks := r.1
    Suppressed := decide (f.Flags &&& FlagInvalid bit ≠ 0) }

/-- The loop of `fileInfoFromFile`: each block without its offset. -/
def wireBlocks (bs : List Block) : List BlockInfo :=
  bs.map (fun b => { Size := b.Size, Hash := b.Hash })

/-- The function `fileInfoFromFile` of `util.go`. -/
def fileInfoFromFile (sep : Char) (bit : Nat) (f : File) : FileInfo :=
  let pf : FileInfo :=
    { Name := ToSlash sep f.Name
      Flags := f.Flags
      Modified := f.Modified
      Version := f.Version
      Blocks := wireBlocks f.Blocks }
  if f.Suppressed then { pf with Flags := pf.Flags ||| FlagInvalid bit } else pf

/-- The sum of the sizes of the first `i` wire blocks. -/
def sizeSum (bs : List BlockInfo) (i : Nat) : Int :=
  ((bs.take i).map BlockInfo.Size).sum

/-- Contiguity of local blocks from a starting offset: every block starts
where the one before it ends, and the last one ends at `total`. -/
def contiguousFrom : List Block → Int → Int → Prop
  | [], start, total => start = total
  | b :: rest, start, total => b.Offset = start ∧ contiguousFrom rest (start + b.Size) total

/-- Every offset of the blocks is an `int64` value. -/
def offsetsInt64 (bs : List Block) : Prop := ∀ b ∈ bs, isInt64 b.Offset

/-- The backslash, the separator of Windows. -/
def backslash : Char := Char.ofNat 92

/-- A wire record of `n` blocks of one size, with empty hashes. -/
def uniformRecord (n : Nat) (size : Int) : FileInfo :=
  { Name := "", Flags := 0, Modified := 0, Version := 0,
    Blocks := List.replicate n { Size := size, Hash := [] } }

/-- A wire record whose name is one backslash. -/
def backslashRecord : FileInfo :=
  { Name := ⟨[backslash]⟩, Flags := 0, Modified := 0, Version := 0, Blocks := [] }

/-- A local record without blocks, with the given name, flags and suppressed
state. -/
def emptyFile (name : String) (flags : Nat) (suppressed : Bool) : File :=
  { Name := name, Size := 0, Flags := flags, Modified := 0, Version := 0, Blocks := [],
    Suppressed := suppressed }

/-- A local record of two contiguous blocks. -/
def twoBlockFile : File :=
  { Name := "a/b", Size := 150, Flags := 5, Modified := 7, Version := 3,
    Blocks := [{ Offset := 0, Size := 100, Hash := [1] }, { Offset := 100, Size := 50, Hash := [2] }],
    Suppressed := true }

/-- The wire record with blocks of sizes 100, 50 and 200. -/
def threeBlockRecord : FileInfo :=
  { Name := "a/b", Flags := 0, Modified := 0, Version := 0,
    Blocks := [{ Size := 100, Hash := [1] }, { Size := 50, Hash := [2] },
      { Size := 200, Hash := [3] }] }

/-! Cluster configuration messages -/

/-- Modelled from the spec: the node entry of a repository share record
(declared in the `protocol` package, not in the sources at hand): a node ID
and a flag word. -/
structure Node where
  ID : String
  Flags : Nat
deriving DecidableEq

/-- Modelled from the spec: the repository share record (declared in the
`protocol` package, not in the sources at hand): a repository ID and the
sequence of its nodes. -/
structure Repository where
  ID : String
  Nodes : List Node
deriving DecidableEq

/-- Modelled from the spec: `protocol.ClusterConfigMessage` (declared in the
`protocol` package, not in the sources at hand): a sequence of repository
share records. -/
structure ClusterConfigMessage where
  Repositories : List Repository
deriving DecidableEq

/-- A Go `map[string]uint32`: an association list. The maps built by `cmMap`
hold every key once (`cmMap_keys_nodup`, `cmMap_values_nodup`). -/
abbrev NodeMap := List (String × Nat)

/-- A Go `map[string]map[string]uint32`. -/
abbrev RepoMap := List (String × NodeMap)

/-- The map assignment `m[k] = v`: the value of an existing key is replaced,
a new key is added. -/
def mapSet {β : Type} : List (String × β) → String → β → List (String × β)
  | [], k, v => [(k, v)]
  | (k', v') :: rest, k, v =>
    if k' = k then (k, v) :: rest else (k', v') :: mapSet rest k v

/-- The map lookup `v, ok := m[k]`. -/
def mapGet {β : Type} : List (String × β) → String → Option β
  | [], _ => none
  | (k', v') :: rest, k => if k' = k then some v' else mapGet rest k

/-- The inner loop of `cmMap`: a fresh map filled with the flags of the nodes,
in the order of the message. -/
def nodeMap (nodes : List Node) : NodeMap :=
  nodes.foldl (fun m node => mapSet m node.ID node.Flags) []

/-- The function `cmMap` of `util.go`. -/
def cmMap (cm : ClusterConfigMessage) : RepoMap :=
  cm.Repositories.foldl (fun m repo => mapSet m repo.ID (nodeMap repo.Nodes)) []

/-- The five errors that `compareClusterConfig` can build, with the node and
repository that each message quotes. -/
inductive Mismatch where
  | differentFlags (node repo : String)
  | missingNode (node repo : String)
  | missingRepository (repo : String)
  | extraNode (node repo : String)
  | extraRepository (repo : String)
deriving DecidableEq

/-- The loop `for node, lflags := range lnodes` of the first pass; the list is
the order in which the loop visits the entries of `lnodes`. -/
def checkNodes (share : Nat) (repo : String) (rnodes : NodeMap) : NodeMap → Option Mismatch
  | [] => none
  | (node, lflags) :: rest =>
    match mapGet rnodes node with
    | some rflags =>
      if lflags &&& share ≠ rflags &&& share then some (Mismatch.differentFlags node repo)
      else checkNodes share repo rnodes rest
    | none => some (Mismatch.missingNode node repo)

/-- The loop `for repo, lnodes := range lm`; the list is the order in which
the loop visits the entries of `lm`. -/
def firstPass (share : Nat) (rm : RepoMap) : RepoMap → Option Mismatch
  | [] => none
  | (repo, lnodes) :: rest =>
    match mapGet rm repo with
    | some rnodes =>
      match checkNodes share repo rnodes lnodes with
      | some e => some e
      | none => firstPass share rm rest
    | none => some (Mismatch.missingRepository repo)

/-- The loop `for node := range rnodes` of the second pass. -/
def checkExtraNodes (repo : String) (lnodes : NodeMap) : NodeMap → Option Mismatch
  | [] => none
  | (node, _) :: rest =>
    match mapGet lnodes node with
    | some _ => checkExtraNodes repo lnodes rest
    | none => some (Mismatch.extraNode node repo)

/-- The loop `for repo, rnodes := range rm`; the list is the order in which
the loop visits the entries of `rm`. -/
def secondPass (lm : RepoMap) : RepoMap → Option Mismatch
  | [] => none
  | (repo, rnodes) :: rest =>
    match mapGet lm repo with
    | some lnodes =>
      match checkExtraNodes repo lnodes rnodes with
      | some e => some e
      | none => secondPass lm rest
    | none => some (Mismatch.extraRepository repo)

/-- The body of `compareClusterConfig` after the two maps are built. Go visits
the entries of a map in an unspecified order: `lorder` and `rorder` are the
orders in which the two `range` loops visit `lm` and `rm`. `none` is Go's
`nil`. -/
def compareMaps (share : Nat) (lm rm lorder rorder : RepoMap) : Option Mismatch :=
  match firstPass share rm lorder with
  | some e => some e
  | none => secondPass lm rorder

/-- The function `compareClusterConfig` of `util.go`, for the given orders of
the two `range` loops; `share` is `protocol.FlagShareBits`. -/
def compareClusterConfig (share : Nat) (loc rem : ClusterConfigMessage)
    (lorder rorder : RepoMap) : Option Mismatch :=
  compareMaps share (cmMap loc) (cmMap rem) lorder rorder

/-- The orders in which a `range` loop can visit the map `m`: every key is
visited once, with the value the map holds for it, whose own entries a nested
`range` loop again visits in any order. -/
def Traversal (m order : RepoMap) : Prop :=
  List.Perm (order.map Prod.fst) (m.map Prod.fst) ∧
  ∀ r ns', (r, ns') ∈ order → ∃ ns, mapGet m r = some ns ∧ List.Perm ns' ns

/-- The map `m` declares the repository `r`. -/
def declaresRepo (m : RepoMap) (r : String) : Prop := (mapGet m r).isSome = true

/-- The flags that the map `m` holds for node `n` in repository `r`, if it
declares the node there. -/
def nodeFlags (m : RepoMap) (r n : String) : Option Nat :=
  (mapGet m r).bind (fun ns => mapGet ns n)

/-- The map `m` declares the node `n` in the repository `r`. -/
def declaresNode (m : RepoMap) (r n : String) : Prop := (nodeFlags m r n).isSome = true

instance (m : RepoMap) (r : String) : Decidable (declaresRepo m r) := by
  unfold declaresRepo; infer_instance

instance (m : RepoMap) (r n : String) : Decidable (declaresNode m r n) := by
  unfold declaresNode; infer_instance

/-- Two normalised views agree: the same repository IDs, in every repository
the same node IDs, and for every node the same share bits. -/
def viewsAgree (share : Nat) (lm rm : RepoMap) : Prop :=
  (∀ r, declaresRepo lm r ↔ declaresRepo rm r) ∧
  (∀ r n, declaresNode lm r n ↔ declaresNode rm r n) ∧
  ∀ r n lf rf, nodeFlags lm r n = some lf → nodeFlags rm r n = some rf →
    lf &&& share = rf &&& share

/-- What an error of `compareClusterConfig` says about the two views. -/
def exhibits (share : Nat) (lm rm : RepoMap) : Mismatch → Prop
  | Mismatch.missingRepository r => declaresRepo lm r ∧ ¬ declaresRepo rm r
  | Mismatch.missingNode n r =>
    declaresRepo lm r ∧ declaresRepo rm r ∧ declaresNode lm r n ∧ ¬ declaresNode rm r n
  | Mismatch.differentFlags n r =>
    ∃ lf rf, nodeFlags lm r n = some lf ∧ nodeFlags rm r n = some rf ∧
      lf &&& share ≠ rf &&& share
  | Mismatch.extraNode n r =>
    declaresRepo lm r ∧ declaresRepo rm r ∧ declaresNode rm r n ∧ ¬ declaresNode lm r n
  | Mismatch.extraRepository r => declaresRepo rm r ∧ ¬ declaresRepo lm r

/-- The message with every node flag word reduced to its share bits. -/
def shareView (share : Nat) (cm : ClusterConfigMessage) : ClusterConfigMessage :=
  { Repositories := cm.Repositories.map (fun repo =>
      { ID := repo.ID
        Nodes := repo.Nodes.map (fun node => { ID := node.ID, Flags := node.Flags &&& share }) }) }

/-- A node map with every flag word reduced to its share bits. -/
def shareNodes (share : Nat) (ns : NodeMap) : NodeMap :=
  ns.map (fun q => (q.1, q.2 &&& share))

/-- A repository map with every flag word reduced to its share bits. -/
def shareMap (share : Nat) (m : RepoMap) : RepoMap :=
  m.map (fun p => (p.1, shareNodes share p.2))

/-- The configuration of the spec: one repository shared with two nodes. -/
def sampleConfig : ClusterConfigMessage :=
  { Repositories := [{ ID := "repoA", Nodes := [{ ID := "node1", Flags := 1 },
      { ID := "node2", Flags := 1 }] }] }

/-- The configuration `sampleConfig` with other bits outside the low byte. -/
def sampleConfigOtherBits : ClusterConfigMessage :=
  { Repositories := [{ ID := "repoA", Nodes := [{ ID := "node1", Flags := 257 },
      { ID := "node2", Flags := 513 }] }] }

/-- The configuration `sampleConfig` without the second node. -/
def sampleConfigOneNode : ClusterConfigMessage :=
  { Repositories := [{ ID := "repoA", Nodes := [{ ID := "node1", Flags := 1 }] }] }

/-- A configuration that lists a repository twice and a node twice. -/
def duplicateConfig : ClusterConfigMessage :=
  { Repositories := [{ ID := "repoA", Nodes := [{ ID := "node1", Flags := 1 }] },
      { ID := "repoA", Nodes := [{ ID := "node2", Flags := 1 }, { ID := "node2", Flags := 2 }] }] }

/-! The GUI error log -/

/-- The type `guiError` of `gui.go`. The time is a number: `time.Time` is a
library type of which the code only stores the value. -/
structure guiError where
  Time : Nat
  Error : String
deriving DecidableEq

/-- The function `showGuiError` of `gui.go` as a function on the log
`guiErrors`; `now` is what `time.Now()` returns. The mutex that the function
holds makes the three steps one step. -/
def showGuiError (now : Nat) (err : String) (guiErrors : List guiError) : List guiError :=
  let appended := guiErrors ++ [{ Time := now, Error := err }]
  if appended.length > 5 then appended.drop (appended.length - 5) else appended

/-- A log of the given messages, stamped 1, 2, 3, ... -/
def logOf (msgs : List String) : List guiError :=
  (List.range msgs.length).zipWith (fun i m => { Time := i + 1, Error := m }) msgs

/-! Discrepancies between two views -/

/-- A discrepancy of the kind the first loop of `compareClusterConfig` looks
for: a repository that local declares and remote does not, a node that local
declares in a repository where remote, which has the repository, does not, or
a node with different share bits on the two sides. -/
def firstPassDiscrepancy (share : Nat) (lm rm : RepoMap) : Prop :=
  (∃ r, declaresRepo lm r ∧ ¬ declaresRepo rm r) ∨
  (∃ r n, declaresNode lm r n ∧ declaresRepo rm r ∧ ¬ declaresNode rm r n) ∨
  (∃ r n lf rf, nodeFlags lm r n = some lf ∧ nodeFlags rm r n = some rf ∧
    lf &&& share ≠ rf &&& share)

/-- The errors that the first loop of `compareClusterConfig` returns. -/
def Mismatch.isFirstPass : Mismatch → Bool
  | Mismatch.differentFlags _ _ => true
  | Mismatch.missingNode _ _ => true
  | Mismatch.missingRepository _ => true
  | Mismatch.extraNode _ _ => false
  | Mismatch.extraRepository _ => false

/-- The errors that the second loop of `compareClusterConfig` returns. -/
def Mismatch.isSecondPass : Mismatch → Bool
  | Mismatch.differentFlags _ _ => false
  | Mismatch.missingNode _ _ => false
  | Mismatch.missingRepository _ => false
  | Mismatch.extraNode _ _ => true
  | Mismatch.extraRepository _ => true

/-- The configuration `sampleConfig` with a second repository. -/
def sampleConfigTwoRepos : ClusterConfigMessage :=
  { Repositories := [{ ID := "repoA", Nodes := [{ ID := "node1", Flags := 1 },
      { ID := "node2", Flags := 1 }] }, { ID := "repoB", Nodes := [{ ID := "node3", Flags := 1 }] }] }

/-- The map of `sampleConfigTwoRepos`, visited from its second repository. -/
def twoReposFromSecond : RepoMap :=
  [("repoB", [("node3", 1)]), ("repoA", [("node1", 1), ("node2", 1)])]

/-- The configuration `sampleConfig` with a third node in place of the
second. -/
def sampleConfigOtherNode : ClusterConfigMessage :=
  { Repositories := [{ ID := "repoA", Nodes := [{ ID := "node1", Flags := 1 },
      { ID := "node3", Flags := 1 }] }] }

/-! Duplicates and the order of a message -/

/-- The last element of a list for which `p` holds. -/
def lastWith {α : Type} (p : α → Bool) : List α → Option α
  | [] => none
  | x :: rest =>
    match lastWith p rest with
    | some y => some y
    | none => if p x then some x else none

/-- The nodes of a repository without every entry whose node ID is listed
again later. -/
def dropEarlierNodes : List Node → List Node
  | [] => []
  | x :: rest =>
    if rest.any (fun y => decide (y.ID = x.ID)) then dropEarlierNodes rest
    else x :: dropEarlierNodes rest

/-- The repositories of a message without every entry whose repository ID is
listed again later, each one without its earlier duplicate nodes. -/
def dropEarlierRepos : List Repository → List Repository
  | [] => []
  | x :: rest =>
    if rest.any (fun y => decide (y.ID = x.ID)) then dropEarlierRepos rest
    else { ID := x.ID, Nodes := dropEarlierNodes x.Nodes } :: dropEarlierRepos rest

/-- The message with all earlier duplicates removed. -/
def withoutEarlierDuplicates (cm : ClusterConfigMessage) : ClusterConfigMessage :=
  { Repositories := dropEarlierRepos cm.Repositories }

/-- Two maps answer every lookup alike: the same repositories, and for every
node of every repository the same flags. -/
def sameLookups (m m' : RepoMap) : Prop :=
  (∀ r, declaresRepo m r ↔ declaresRepo m' r) ∧ ∀ r n, nodeFlags m r n = nodeFlags m' r n

/-- The message lists no repository ID twice and no node ID twice in one
repository. -/
def noDuplicates (cm : ClusterConfigMessage) : Prop :=
  (cm.Repositories.map Repository.ID).Nodup ∧
  ∀ repo ∈ cm.Repositories, (repo.Nodes.map Node.ID).Nodup

instance (cm : ClusterConfigMessage) : Decidable (noDuplicates cm) := by
  unfold noDuplicates; infer_instance

/-- The message `cm'` lists the repositories of `cm` in another order, each
with its nodes in another order. -/
def Reordered (cm cm' : ClusterConfigMessage) : Prop :=
  ∃ p, List.Perm cm.Repositories p ∧
    List.Forall₂ (fun x y => x.ID = y.ID ∧ List.Perm x.Nodes y.Nodes) p cm'.Repositories

/-- The configuration `sampleConfigTwoRepos` with its repositories and the
nodes of the first one in the other order. -/
def sampleConfigTwoReposReordered : ClusterConfigMessage :=
  { Repositories := [{ ID := "repoB", Nodes := [{ ID := "node3", Flags := 1 }] },
      { ID := "repoA", Nodes := [{ ID := "node2", Flags := 1 }, { ID := "node1", Flags := 1 }] }] }

/-- The message lists the repository `r`. -/
def listsRepo (cm : ClusterConfigMessage) (r : String) : Prop :=
  ∃ repo ∈ cm.Repositories, repo.ID = r

/-- The message lists the node `n` with the flags `f` in an entry of the
repository `r`. -/
def listsNode (cm : ClusterConfigMessage) (r n : String) (f : Nat) : Prop :=
  ∃ repo ∈ cm.Repositories, repo.ID = r ∧ ∃ node ∈ repo.Nodes, node.ID = n ∧ node.Flags = f

/-! Local records and what a message declares -/

/-- The name of a local record is in native form: where the separator is not
the slash, the name holds no slash (`fileFromFileInfo` builds no other name,
and `util.go` notes of it `Name is with native separator`). -/
def nativeName (sep : Char) (name : String) : Prop := sep = slash ∨ slash ∉ name.data

instance (sep : Char) (name : String) : Decidable (nativeName sep name) := by
  unfold nativeName; infer_instance

/-- A local record of two contiguous blocks whose name holds a backslash. -/
def nativeTwoBlockFile : File :=
  { Name := ⟨['a', backslash, 'b']⟩, Size := 150, Flags := 5, Modified := 7, Version := 3,
    Blocks := [{ Offset := 0, Size := 100, Hash := [1] }, { Offset := 100, Size := 50, Hash := [2] }],
    Suppressed := true }

/-- The flags that a message declares for the node `n` in the repository `r`,
read off the message itself: those of the last entry for `n` in the last entry
for `r` (a later entry of an ID stands for the ID), if there are such
entries. -/
def declaredFlags (cm : ClusterConfigMessage) (r n : String) : Option Nat :=
  (lastWith (fun x => decide (x.ID = r)) cm.Repositories).bind
    (fun repo => (lastWith (fun x => decide (x.ID = n)) repo.Nodes).map Node.Flags)

/-- Two messages declare the same repositories and, in every repository, the
same nodes. -/
def sameDeclarations (loc rem : ClusterConfigMessage) : Prop :=
  (∀ r, listsRepo loc r ↔ listsRepo rem r) ∧
  ∀ r n, (declaredFlags loc r n).isSome = true ↔ (declaredFlags rem r n).isSome = true

/-- Two messages agree: they declare the same repositories and nodes, and
every node with the same share bits. -/
def messagesAgree (share : Nat) (loc rem : ClusterConfigMessage) : Prop :=
  sameDeclarations loc rem ∧
  ∀ r n lf rf, declaredFlags loc r n = some lf → declaredFlags rem r n = some rf →
    lf &&& share = rf &&& share

/-- Two flag words differ only in bits outside `share`. -/
def differOutside (share lf rf : Nat) : Prop :=
  ∀ i, lf.testBit i ≠ rf.testBit i → share.testBit i = false

/-- The configuration `sampleConfig` with its nodes in the other order and
other bits outside the low byte. -/
def sampleConfigSwapped : ClusterConfigMessage :=
  { Repositories := [{ ID := "repoA", Nodes := [{ ID := "node2", Flags := 513 },
      { ID := "node1", Flags := 257 }] }] }

/-- The configuration `sampleConfig` with the other share bit for its first
node. -/
def sampleConfigConflict : ClusterConfigMessage :=
  { Repositories := [{ ID := "repoA", Nodes := [{ ID := "node1", Flags := 2 },
      { ID := "node2", Flags := 1 }] }] }

end Syncthing

namespace Syncthing

/-! Bits -/

theorem testBit_bitClear (a b i : Nat) :
    (bitClear a b).testBit i = (a.testBit i && !b.testBit i) := by
  unfold bitClear
  rw [Nat.testBit_xor, Nat.testBit_and]
  cases a.testBit i <;> cases b.testBit i <;> rfl

theorem testBit_FlagInvalid (bit i : Nat) :
    (FlagInvalid bit).testBit i = decide (bit = i) := by
  unfold FlagInvalid
  rw [Nat.one_shiftLeft, Nat.testBit_two_pow]

theorem and_FlagInvalid_ne_zero (a bit : Nat) :
    a &&& FlagInvalid bit ≠ 0 ↔ a.testBit bit = true := by
  unfold FlagInvalid
  rw [Nat.one_shiftLeft, Nat.and_two_pow]
  cases h : a.testBit bit
  · simp
  · simp

/-- Clearing the invalid bit and setting it again when it was set gives the
flag word back. -/
theorem restore_flags (a bit : Nat) :
    (if decide (a &&& FlagInvalid bit ≠ 0) = true
      then bitClear a (FlagInvalid bit) ||| FlagInvalid bit
      else bitClear a (FlagInvalid bit)) = a := by
  by_cases h : a &&& FlagInvalid bit ≠ 0
  · rw [if_pos (by simpa using h)]
    have hb := (and_FlagInvalid_ne_zero a bit).1 h
    apply Nat.eq_of_testBit_eq
    intro i
    rw [Nat.testBit_or, testBit_bitClear, testBit_FlagInvalid]
    by_cases hi : bit = i
    · subst hi; simp [hb]
    · simp [hi]
  · rw [if_neg (by simpa using h)]
    have hb : a.testBit bit = false := by
      cases hc : a.testBit bit
      · rfl
      · exact absurd ((and_FlagInvalid_ne_zero a bit).2 hc) h
    apply Nat.eq_of_testBit_eq
    intro i
    rw [testBit_bitClear, testBit_FlagInvalid]
    by_cases hi : bit = i
    · subst hi; simp [hb]
    · simp [hi]

/-- A flag word without the invalid bit is what is left of it, and of the
word with the bit set, once the bit is cleared. -/
theorem bitClear_of_clear (a bit : Nat) (h : a.testBit bit = false) :
    bitClear a (FlagInvalid bit) = a ∧ bitClear (a ||| FlagInvalid bit) (FlagInvalid bit) = a := by
  constructor <;> apply Nat.eq_of_testBit_eq <;> intro i
  · rw [testBit_bitClear, testBit_FlagInvalid]
    by_cases hi : bit = i
    · subst hi; simp [h]
    · simp [hi]
  · rw [testBit_bitClear, Nat.testBit_or, testBit_FlagInvalid]
    by_cases hi : bit = i
    · subst hi; simp [h]
    · simp [hi]

/-! Names -/

/-- Replacing `b` by `a` and then `a` by `b` gives a text back exactly when it
holds no `a`. -/
theorem replace_back (a b : Char) (hab : a ≠ b) (l : List Char) :
    (l.map (fun c => if c = b then a else c)).map (fun c => if c = a then b else c) = l ↔
      a ∉ l := by
  induction l with
  | nil => simp
  | cons c l ih =>
    simp only [List.map_cons, List.cons.injEq, List.mem_cons, not_or]
    rw [ih]
    by_cases h1 : c = b
    · subst h1; simp [hab]
    · by_cases h2 : c = a
      · subst h2; simp [h1, Ne.symm h1]
      · simp [h1, h2, Ne.symm h2]

theorem ToSlash_FromSlash (sep : Char) (s : String) :
    ToSlash sep (FromSlash sep s) = s ↔ (sep = slash ∨ sep ∉ s.data) := by
  by_cases hs : sep = slash
  · simp [ToSlash, FromSlash, hs]
  · simp only [ToSlash, FromSlash, hs, if_false, replaceAll, false_or]
    rw [String.ext_iff]
    exact replace_back sep slash hs s.data

theorem FromSlash_ToSlash (sep : Char) (s : String) :
    FromSlash sep (ToSlash sep s) = s ↔ (sep = slash ∨ slash ∉ s.data) := by
  by_cases hs : sep = slash
  · simp [ToSlash, FromSlash, hs]
  · simp only [ToSlash, FromSlash, hs, if_false, replaceAll, false_or]
    rw [String.ext_iff]
    exact replace_back slash sep (Ne.symm hs) s.data

/-! Blocks -/

theorem wrapInt64_of_isInt64 (x : Int) (h : isInt64 x) : wrapInt64 x = x := by
  unfold isInt64 at h
  unfold wrapInt64
  omega

theorem isInt64_wrapInt64 (x : Int) : isInt64 (wrapInt64 x) := by
  unfold isInt64 wrapInt64
  omega

theorem wrapInt64_add_left (a b : Int) : wrapInt64 (wrapInt64 a + b) = wrapInt64 (a + b) := by
  unfold wrapInt64
  omega

theorem wireBlocks_localBlocks (bs : List BlockInfo) (offset : Int) :
    wireBlocks (localBlocks bs offset).1 = bs := by
  induction bs generalizing offset with
  | nil => rfl
  | cons b rest ih =>
    simp only [localBlocks, wireBlocks, List.map_cons, List.cons.injEq, true_and]
    exact ih _

theorem localBlocks_length (bs : List BlockInfo) (offset : Int) :
    (localBlocks bs offset).1.length = bs.length := by
  induction bs generalizing offset with
  | nil => rfl
  | cons b rest ih => simp only [localBlocks, List.length_cons, ih]

theorem sizeSum_zero (bs : List BlockInfo) : sizeSum bs 0 = 0 := by
  simp [sizeSum]

theorem sizeSum_cons_succ (b : BlockInfo) (bs : List BlockInfo) (i : Nat) :
    sizeSum (b :: bs) (i + 1) = b.Size + sizeSum bs i := by
  simp [sizeSum]

/-- The offsets that the loop writes: the starting offset plus the running
total, as an `int64`. -/
theorem localBlocks_offsets (bs : List BlockInfo) (offset : Int) (h : isInt64 offset) :
    (localBlocks bs offset).1.map Block.Offset =
      (List.range bs.length).map (fun i => wrapInt64 (offset + sizeSum bs i)) := by
  induction bs generalizing offset with
  | nil => rfl
  | cons b rest ih =>
    simp only [localBlocks, List.map_cons, List.length_cons, List.range_succ_eq_map,
      List.map_map, sizeSum_zero, add_zero, wrapInt64_of_isInt64 offset h, List.cons.injEq,
      true_and]
    rw [ih _ (isInt64_wrapInt64 _)]
    apply List.map_congr_left
    intro i _
    simp only [Function.comp, sizeSum_cons_succ, wrapInt64_add_left, add_assoc]

/-- The offset after the loop: the starting offset plus the total, as an
`int64`. -/
theorem localBlocks_total (bs : List BlockInfo) (offset : Int) (h : isInt64 offset) :
    (localBlocks bs offset).2 = wrapInt64 (offset + sizeSum bs bs.length) := by
  induction bs generalizing offset with
  | nil => simp [localBlocks, sizeSum, wrapInt64_of_isInt64 offset h]
  | cons b rest ih =>
    simp only [localBlocks, List.length_cons, sizeSum_cons_succ]
    rw [ih _ (isInt64_wrapInt64 _), wrapInt64_add_left, add_assoc]

theorem isInt64_zero : isInt64 0 := by decide

theorem contiguousFrom_start (bs : List Block) (start total : Int)
    (hc : contiguousFrom bs start total) (ho : offsetsInt64 bs) (ht : isInt64 total) :
    isInt64 start := by
  cases bs with
  | nil => simp only [contiguousFrom] at hc; rw [hc]; exact ht
  | cons b rest =>
    simp only [contiguousFrom] at hc
    rw [← hc.1]
    exact ho b (List.mem_cons_self _ _)

/-- On contiguous blocks whose offsets and total are `int64` values the loop
of `fileFromFileInfo` recomputes the offsets and the total. -/
theorem localBlocks_wireBlocks (bs : List Block) (start total : Int)
    (hc : contiguousFrom bs start total) (ho : offsetsInt64 bs) (ht : isInt64 total) :
    localBlocks (wireBlocks bs) start = (bs, total) := by
  induction bs generalizing start with
  | nil => simp only [contiguousFrom] at hc; simp [wireBlocks, localBlocks, hc]
  | cons b rest ih =>
    have hrest : offsetsInt64 rest := fun x hx => ho x (List.mem_cons_of_mem _ hx)
    simp only [contiguousFrom] at hc
    have hnext := contiguousFrom_start rest _ total hc.2 hrest ht
    have ih' := ih (start + b.Size) hc.2 hrest
    simp only [wireBlocks] at ih'
    simp only [wireBlocks, List.map_cons, localBlocks, wrapInt64_of_isInt64 _ hnext, ih']
    rw [← hc.1]

end Syncthing

namespace Syncthing

/-! The translator: round trips -/

/-- The wire record that the two conversions give back: only the name can
differ from the record they started from. -/
theorem wire_roundtrip_fields (sep : Char) (bit : Nat) (g : FileInfo) :
    fileInfoFromFile sep bit (fileFromFileInfo sep bit g) =
      { g with Name := ToSlash sep (FromSlash sep g.Name) } := by
  have hflags := restore_flags g.Flags bit
  by_cases h : g.Flags &&& FlagInvalid bit ≠ 0
  · rw [if_pos (by simpa using h)] at hflags
    simp only [fileInfoFromFile, fileFromFileInfo, wireBlocks_localBlocks, hflags,
      decide_eq_true h, if_true]
  · rw [if_neg (by simpa using h)] at hflags
    simp only [fileInfoFromFile, fileFromFileInfo, wireBlocks_localBlocks, hflags,
      decide_eq_false h, Bool.false_eq_true, if_false]

/-- The local record that the two conversions give back from a well-formed
record: only the name can differ from the record they started from. -/
theorem local_roundtrip_fields (sep : Char) (bit : Nat) (f : File)
    (hc : contiguousFrom f.Blocks 0 f.Size) (ho : offsetsInt64 f.Blocks) (hs : isInt64 f.Size)
    (hf : f.Flags &&& FlagInvalid bit = 0) :
    fileFromFileInfo sep bit (fileInfoFromFile sep bit f) =
      { f with Name := FromSlash sep (ToSlash sep f.Name) } := by
  have hbit : f.Flags.testBit bit = false := by
    cases hb : f.Flags.testBit bit
    · rfl
    · exact absurd hf ((and_FlagInvalid_ne_zero f.Flags bit).2 hb)
  have hclear := bitClear_of_clear f.Flags bit hbit
  have hblocks := localBlocks_wireBlocks f.Blocks 0 f.Size hc ho hs
  have hset : (f.Flags ||| FlagInvalid bit) &&& FlagInvalid bit ≠ 0 := by
    rw [and_FlagInvalid_ne_zero, Nat.testBit_or, testBit_FlagInvalid]
    simp
  obtain ⟨name, size, flags, modified, version, blocks, suppressed⟩ := f
  cases suppressed
  · simp only [fileInfoFromFile, fileFromFileInfo, Bool.false_eq_true, if_false]
    simp only at hblocks hclear hf
    rw [hblocks, hclear.1, hf]
    simp
  · simp only [fileInfoFromFile, fileFromFileInfo, if_true]
    simp only at hblocks hclear hset
    rw [hblocks, hclear.2]
    simp [hset]

theorem sizeSum_replicate (n : Nat) (b : BlockInfo) :
    sizeSum (List.replicate n b) (List.replicate n b).length = n * b.Size := by
  unfold sizeSum
  rw [List.take_length, List.map_replicate, List.sum_replicate, nsmul_eq_mul]

/-- C1, as stated, fails where the separator is the backslash: a wire name
holding a backslash comes back with a slash in its place. -/
theorem wire_roundtrip_backslash :
    fileInfoFromFile backslash 13 (fileFromFileInfo backslash 13 backslashRecord)
      ≠ backslashRecord := by
  decide

/-- C1 (amended): for every wire record g, fileInfoFromFile(fileFromFileInfo(g))
has the flags (invalid bit included), modified, version and blocks (sizes and
hashes, in order) of g, and it equals g exactly when the path separator is the
slash or the name of g holds no separator character. -/
theorem wire_roundtrip (sep : Char) (bit : Nat) (g : FileInfo) :
    (fileInfoFromFile sep bit (fileFromFileInfo sep bit g)).Flags = g.Flags ∧
    (fileInfoFromFile sep bit (fileFromFileInfo sep bit g)).Modified = g.Modified ∧
    (fileInfoFromFile sep bit (fileFromFileInfo sep bit g)).Version = g.Version ∧
    (fileInfoFromFile sep bit (fileFromFileInfo sep bit g)).Blocks = g.Blocks ∧
    (fileInfoFromFile sep bit (fileFromFileInfo sep bit g) = g ↔
      (sep = slash ∨ sep ∉ g.Name.data)) := by
  rw [wire_roundtrip_fields]
  refine ⟨rfl, rfl, rfl, rfl, ?_⟩
  rw [← ToSlash_FromSlash]
  obtain ⟨name, flags, modified, version, blocks⟩ := g
  simp

/-- Outside native form the name does not come back: with the backslash as
separator a local name that holds a slash returns with a backslash in its
place. -/
theorem local_roundtrip_slash :
    contiguousFrom (emptyFile "/" 0 false).Blocks 0 (emptyFile "/" 0 false).Size ∧
    (emptyFile "/" 0 false).Flags &&& FlagInvalid 13 = 0 ∧
    ¬ nativeName backslash (emptyFile "/" 0 false).Name ∧
    fileFromFileInfo backslash 13 (fileInfoFromFile backslash 13 (emptyFile "/" 0 false))
      ≠ emptyFile "/" 0 false := by
  refine ⟨rfl, by decide, by decide, by decide⟩

/-- C2: for every local File f (a name in native form) with well-formed
contiguous blocks (each offset is the sum of the sizes before it, f.size is
the sum of all sizes, all of them int64 values) whose flags do not carry the
invalid bit, fileFromFileInfo(fileInfoFromFile(f)) equals f in every field:
name, size, flags, modified, version, blocks (offset, size, hash) and
suppressed. -/
theorem local_roundtrip (sep : Char) (bit : Nat) (f : File)
    (hname : nativeName sep f.Name)
    (hc : contiguousFrom f.Blocks 0 f.Size) (ho : offsetsInt64 f.Blocks) (hs : isInt64 f.Size)
    (hf : f.Flags &&& FlagInvalid bit = 0) :
    fileFromFileInfo sep bit (fileInfoFromFile sep bit f) = f := by
  rw [local_roundtrip_fields sep bit f hc ho hs hf, (FromSlash_ToSlash sep f.Name).2 hname]

/-- C2 at a suppressed record of two blocks whose name holds a backslash, with
the backslash as separator. -/
theorem local_roundtrip_witness :
    (fileInfoFromFile backslash 13 nativeTwoBlockFile).Name = "a/b" ∧
    (fileInfoFromFile backslash 13 nativeTwoBlockFile).Flags = 8197 ∧
    fileFromFileInfo backslash 13 (fileInfoFromFile backslash 13 nativeTwoBlockFile)
      = nativeTwoBlockFile := by
  have hc : contiguousFrom nativeTwoBlockFile.Blocks 0 nativeTwoBlockFile.Size := by
    simp [contiguousFrom, nativeTwoBlockFile]
  have ho : offsetsInt64 nativeTwoBlockFile.Blocks := by
    intro b hb
    simp only [nativeTwoBlockFile, List.mem_cons, List.mem_singleton, List.not_mem_nil,
      or_false] at hb
    rcases hb with rfl | rfl <;> decide
  exact ⟨by decide, by decide,
    local_roundtrip backslash 13 nativeTwoBlockFile (by decide) hc ho (by decide) (by decide)⟩

end Syncthing

namespace Syncthing

/-! The translator: offsets and flags -/

/-- The size that `fileFromFileInfo` returns for `n` blocks of one size. -/
theorem uniformRecord_size (sep : Char) (bit n : Nat) (size : Int) :
    (fileFromFileInfo sep bit (uniformRecord n size)).Size = wrapInt64 (n * size) := by
  have htotal := localBlocks_total (List.replicate n ({ Size := size, Hash := [] } : BlockInfo)) 0
    isInt64_zero
  rw [sizeSum_replicate, zero_add] at htotal
  exact htotal

/-- The sum of the sizes of `n` blocks of one size. -/
theorem uniformRecord_sum (n : Nat) (size : Int) :
    sizeSum (uniformRecord n size).Blocks (uniformRecord n size).Blocks.length = n * size :=
  sizeSum_replicate n { Size := size, Hash := [] }

/-- C3, as stated, fails once the sizes add up to more than an int64 holds:
for 2^33 blocks of 2^30 bytes the sum of the sizes is 2^63 and the size that
`fileFromFileInfo` returns is -2^63. -/
theorem size_overflow :
    (fileFromFileInfo slash 13 (uniformRecord (2 ^ 33) (2 ^ 30))).Size = -(2 ^ 63) ∧
    sizeSum (uniformRecord (2 ^ 33) (2 ^ 30)).Blocks
      (uniformRecord (2 ^ 33) (2 ^ 30)).Blocks.length = 2 ^ 63 := by
  rw [uniformRecord_size, uniformRecord_sum]
  constructor
  · norm_num [wrapInt64]
  · norm_num

/-- C3 (amended): for every wire record, fileFromFileInfo produces exactly as
many local blocks as wire blocks, the i-th local block's offset is the sum of
the sizes of wire blocks 0..i-1 reduced to an int64 (so the first offset is
0), and the result's size is the sum of all wire block sizes reduced to an
int64; whenever these sums are int64 values the offsets and the size are the
sums themselves, e.g. sizes [100, 50, 200] give offsets [0, 100, 150] and size
350. -/
theorem offsets_and_size (sep : Char) (bit : Nat) (g : FileInfo) :
    (fileFromFileInfo sep bit g).Blocks.length = g.Blocks.length ∧
    (fileFromFileInfo sep bit g).Blocks.map Block.Offset =
      (List.range g.Blocks.length).map (fun i => wrapInt64 (sizeSum g.Blocks i)) ∧
    (fileFromFileInfo sep bit g).Size = wrapInt64 (sizeSum g.Blocks g.Blocks.length) ∧
    ((∀ i, i ≤ g.Blocks.length → isInt64 (sizeSum g.Blocks i)) →
      (fileFromFileInfo sep bit g).Blocks.map Block.Offset =
        (List.range g.Blocks.length).map (fun i => sizeSum g.Blocks i) ∧
      (fileFromFileInfo sep bit g).Size = sizeSum g.Blocks g.Blocks.length) ∧
    (fileFromFileInfo sep bit threeBlockRecord).Blocks.map Block.Offset = [0, 100, 150] ∧
    (fileFromFileInfo sep bit threeBlockRecord).Size = 350 := by
  have hoff := localBlocks_offsets g.Blocks 0 isInt64_zero
  have htot := localBlocks_total g.Blocks 0 isInt64_zero
  simp only [zero_add] at hoff htot
  refine ⟨localBlocks_length _ _, hoff, htot, ?_, rfl, rfl⟩
  intro h
  refine ⟨?_, ?_⟩
  · show (localBlocks g.Blocks 0).1.map Block.Offset = _
    rw [hoff]
    apply List.map_congr_left
    intro i hi
    exact wrapInt64_of_isInt64 _ (h i (le_of_lt (List.mem_range.1 hi)))
  · show (localBlocks g.Blocks 0).2 = _
    rw [htot]
    exact wrapInt64_of_isInt64 _ (h _ (le_refl _))

/-- The flags and the suppressed state that `fileFromFileInfo` returns, bit by
bit. -/
theorem fileFromFileInfo_flags (sep : Char) (bit : Nat) (g : FileInfo) :
    (fileFromFileInfo sep bit g).Flags &&& FlagInvalid bit = 0 ∧
    (fileFromFileInfo sep bit g).Flags.testBit bit = false ∧
    (∀ i, i ≠ bit → (fileFromFileInfo sep bit g).Flags.testBit i = g.Flags.testBit i) ∧
    ((fileFromFileInfo sep bit g).Suppressed = true ↔ g.Flags &&& FlagInvalid bit ≠ 0) ∧
    ((fileFromFileInfo sep bit g).Suppressed = true ↔ g.Flags.testBit bit = true) := by
  have hbit : (fileFromFileInfo sep bit g).Flags.testBit bit = false := by
    simp [fileFromFileInfo, testBit_bitClear, testBit_FlagInvalid]
  refine ⟨?_, hbit, ?_, ?_, ?_⟩
  · by_contra hne
    rw [(and_FlagInvalid_ne_zero _ bit).1 hne] at hbit
    exact Bool.noConfusion hbit
  · intro i hi
    simp [fileFromFileInfo, testBit_bitClear, testBit_FlagInvalid, Ne.symm hi]
  · simp [fileFromFileInfo]
  · rw [← and_FlagInvalid_ne_zero]
    simp [fileFromFileInfo]

/-- C6: for every wire record g, the flags of fileFromFileInfo(g) are the flags
of g with the invalid bit cleared (the bit is not set, every other bit is
unchanged), and suppressed is true if and only if the invalid bit is set in
the flags of g. -/
theorem local_flags (sep : Char) (bit : Nat) (g : FileInfo) :
    (fileFromFileInfo sep bit g).Flags &&& FlagInvalid bit = 0 ∧
    (fileFromFileInfo sep bit g).Flags.testBit bit = false ∧
    (∀ i, i ≠ bit → (fileFromFileInfo sep bit g).Flags.testBit i = g.Flags.testBit i) ∧
    ((fileFromFileInfo sep bit g).Suppressed = true ↔ g.Flags &&& FlagInvalid bit ≠ 0) ∧
    ((fileFromFileInfo sep bit g).Suppressed = true ↔ g.Flags.testBit bit = true) :=
  fileFromFileInfo_flags sep bit g

/-- Outside the invariant of local records the wire flags keep what they are
given: `fileInfoFromFile` copies the flags of a record with suppressed = false
as they are. -/
theorem wire_flags_keep_invalid_bit :
    (emptyFile "a" (FlagInvalid 13) false).Suppressed = false ∧
    (fileInfoFromFile slash 13 (emptyFile "a" (FlagInvalid 13) false)).Flags &&& FlagInvalid 13
      ≠ 0 := by
  decide

/-- C7: for every local File f with suppressed = false (a local record: its
flags do not carry the reserved invalid bit), the invalid bit is not set in
the flags after either conversion: it is not set in fileInfoFromFile(f).flags,
and it is not set in fileFromFileInfo(fileInfoFromFile(f)).flags. -/
theorem not_suppressed_flags (sep : Char) (bit : Nat) (f : File) (hs : f.Suppressed = false)
    (hinv : f.Flags &&& FlagInvalid bit = 0) :
    (fileInfoFromFile sep bit f).Flags &&& FlagInvalid bit = 0 ∧
    (fileInfoFromFile sep bit f).Flags.testBit bit = false ∧
    (fileFromFileInfo sep bit (fileInfoFromFile sep bit f)).Flags &&& FlagInvalid bit = 0 ∧
    (fileFromFileInfo sep bit (fileInfoFromFile sep bit f)).Flags.testBit bit = false := by
  have hw : (fileInfoFromFile sep bit f).Flags = f.Flags := by
    simp [fileInfoFromFile, hs]
  have h := fileFromFileInfo_flags sep bit (fileInfoFromFile sep bit f)
  have hbit : f.Flags.testBit bit = false := by
    cases hb : f.Flags.testBit bit
    · rfl
    · exact absurd hinv ((and_FlagInvalid_ne_zero f.Flags bit).2 hb)
  refine ⟨?_, ?_, h.1, h.2.1⟩
  · rw [hw]
    exact hinv
  · rw [hw]
    exact hbit

/-- C7 at a record with flags 5 and no blocks: flags 5 on the wire and back. -/
theorem not_suppressed_flags_witness :
    (fileInfoFromFile slash 13 (emptyFile "a" 5 false)).Flags = 5 ∧
    (fileFromFileInfo slash 13 (fileInfoFromFile slash 13 (emptyFile "a" 5 false))).Flags = 5 ∧
    (fileInfoFromFile slash 13 (emptyFile "a" 5 false)).Flags &&& FlagInvalid 13 = 0 ∧
    (fileFromFileInfo slash 13 (fileInfoFromFile slash 13 (emptyFile "a" 5 false))).Flags
      &&& FlagInvalid 13 = 0 :=
  ⟨by decide, by decide,
    (not_suppressed_flags slash 13 (emptyFile "a" 5 false) rfl (by decide)).1,
    (not_suppressed_flags slash 13 (emptyFile "a" 5 false) rfl (by decide)).2.2.1⟩

/-- C8: for every local File f with suppressed = true and arbitrary flags,
fileFromFileInfo(fileInfoFromFile(f)) has suppressed = true and its flags agree
with the flags of f on every bit other than the invalid bit. -/
theorem suppressed_roundtrip (sep : Char) (bit : Nat) (f : File) (hs : f.Suppressed = true) :
    (fileFromFileInfo sep bit (fileInfoFromFile sep bit f)).Suppressed = true ∧
    ∀ i, i ≠ bit →
      (fileFromFileInfo sep bit (fileInfoFromFile sep bit f)).Flags.testBit i
        = f.Flags.testBit i := by
  have hw : (fileInfoFromFile sep bit f).Flags = f.Flags ||| FlagInvalid bit := by
    simp [fileInfoFromFile, hs]
  have h := fileFromFileInfo_flags sep bit (fileInfoFromFile sep bit f)
  constructor
  · rw [h.2.2.2.2, hw, Nat.testBit_or, testBit_FlagInvalid]
    simp
  · intro i hi
    rw [h.2.2.1 i hi, hw, Nat.testBit_or, testBit_FlagInvalid]
    simp [Ne.symm hi]

/-- C8 at a suppressed record whose flags already carry the invalid bit (the
bit 13) next to the bits 0 and 2. -/
theorem suppressed_roundtrip_witness :
    (emptyFile "a" 8197 true).Suppressed = true ∧
    (fileFromFileInfo slash 13 (fileInfoFromFile slash 13 (emptyFile "a" 8197 true))).Suppressed
      = true ∧
    (fileFromFileInfo slash 13 (fileInfoFromFile slash 13 (emptyFile "a" 8197 true))).Flags.testBit 2
      = (emptyFile "a" 8197 true).Flags.testBit 2 :=
  ⟨rfl, (suppressed_roundtrip slash 13 (emptyFile "a" 8197 true) rfl).1,
    (suppressed_roundtrip slash 13 (emptyFile "a" 8197 true) rfl).2 2 (by decide)⟩

end Syncthing

namespace Syncthing

/-! Maps -/

theorem mapGet_mapSet {β : Type} (m : List (String × β)) (k k' : String) (v : β) :
    mapGet (mapSet m k v) k' = if k = k' then some v else mapGet m k' := by
  induction m with
  | nil => simp [mapSet, mapGet]
  | cons p rest ih =>
    obtain ⟨a, b⟩ := p
    by_cases h : a = k
    · subst h
      by_cases h2 : a = k' <;> simp [mapSet, mapGet, h2]
    · by_cases h2 : a = k'
      · have hk : ¬ k = k' := fun hk => h (h2.trans hk.symm)
        subst h2
        simp [mapSet, mapGet, h, hk]
      · simp [mapSet, mapGet, h, h2, ih]

theorem mem_of_mapGet {β : Type} (m : List (String × β)) (k : String) (v : β)
    (h : mapGet m k = some v) : (k, v) ∈ m := by
  induction m with
  | nil => simp [mapGet] at h
  | cons p rest ih =>
    obtain ⟨a, b⟩ := p
    by_cases hk : a = k
    · simp only [mapGet, hk, if_true, Option.some.injEq] at h
      simp [hk, h]
    · simp only [mapGet, hk, if_false] at h
      exact List.mem_cons_of_mem _ (ih h)

theorem mapGet_of_mem {β : Type} (m : List (String × β)) (k : String) (v : β)
    (hn : (m.map Prod.fst).Nodup) (h : (k, v) ∈ m) : mapGet m k = some v := by
  induction m with
  | nil => simp at h
  | cons p rest ih =>
    obtain ⟨a, b⟩ := p
    simp only [List.map_cons, List.nodup_cons] at hn
    rcases List.mem_cons.1 h with heq | hmem
    · simp only [Prod.mk.injEq] at heq
      simp [mapGet, heq.1, heq.2]
    · have hk : a ≠ k := by
        intro hak
        apply hn.1
        rw [hak]
        exact List.mem_map.2 ⟨(k, v), hmem, rfl⟩
      simp only [mapGet, hk, if_false]
      exact ih hn.2 hmem

theorem mapGet_isSome_iff {β : Type} (m : List (String × β)) (k : String) :
    (mapGet m k).isSome = true ↔ k ∈ m.map Prod.fst := by
  induction m with
  | nil => simp [mapGet]
  | cons p rest ih =>
    obtain ⟨a, b⟩ := p
    by_cases hk : a = k
    · simp [mapGet, hk]
    · simp only [mapGet, hk, if_false, ih, List.map_cons, List.mem_cons]
      constructor
      · exact Or.inr
      · rintro (h | h)
        · exact absurd h.symm hk
        · exact h

theorem mem_keys_mapSet {β : Type} (m : List (String × β)) (k a : String) (v : β) :
    a ∈ (mapSet m k v).map Prod.fst ↔ a = k ∨ a ∈ m.map Prod.fst := by
  rw [← mapGet_isSome_iff, ← mapGet_isSome_iff, mapGet_mapSet]
  by_cases h : k = a
  · simp [h]
  · simp [h, Ne.symm h]

theorem nodup_keys_mapSet {β : Type} (m : List (String × β)) (k : String) (v : β)
    (hn : (m.map Prod.fst).Nodup) : ((mapSet m k v).map Prod.fst).Nodup := by
  induction m with
  | nil => simp [mapSet]
  | cons p rest ih =>
    obtain ⟨a, b⟩ := p
    simp only [List.map_cons, List.nodup_cons] at hn
    by_cases h : a = k
    · subst h
      simp only [mapSet, if_true, List.map_cons, List.nodup_cons]
      exact hn
    · simp only [mapSet, h, if_false, List.map_cons, List.nodup_cons]
      refine ⟨?_, ih hn.2⟩
      rw [mem_keys_mapSet]
      exact fun hor => hor.elim h hn.1

theorem mem_mapSet {β : Type} (m : List (String × β)) (k : String) (v : β) (p : String × β)
    (h : p ∈ mapSet m k v) : p = (k, v) ∨ p ∈ m := by
  induction m with
  | nil => simpa [mapSet] using h
  | cons q rest ih =>
    obtain ⟨a, b⟩ := q
    by_cases hk : a = k
    · simp only [mapSet, hk, if_true, List.mem_cons] at h
      rcases h with h | h
      · exact Or.inl h
      · exact Or.inr (List.mem_cons_of_mem _ h)
    · simp only [mapSet, hk, if_false, List.mem_cons] at h
      rcases h with h | h
      · exact Or.inr (by simp [h])
      · rcases ih h with h' | h'
        · exact Or.inl h'
        · exact Or.inr (List.mem_cons_of_mem _ h')

theorem nodup_keys_foldl_nodes (nodes : List Node) (acc : NodeMap)
    (hn : (acc.map Prod.fst).Nodup) :
    ((nodes.foldl (fun m node => mapSet m node.ID node.Flags) acc).map Prod.fst).Nodup := by
  induction nodes generalizing acc with
  | nil => exact hn
  | cons node rest ih => exact ih _ (nodup_keys_mapSet acc node.ID node.Flags hn)

/-- The inner maps that `cmMap` builds hold every node ID once. -/
theorem nodeMap_keys_nodup (nodes : List Node) : ((nodeMap nodes).map Prod.fst).Nodup :=
  nodup_keys_foldl_nodes nodes [] List.nodup_nil

theorem nodup_keys_foldl_repos (repos : List Repository) (acc : RepoMap)
    (hn : (acc.map Prod.fst).Nodup) :
    ((repos.foldl (fun m repo => mapSet m repo.ID (nodeMap repo.Nodes)) acc).map Prod.fst).Nodup := by
  induction repos generalizing acc with
  | nil => exact hn
  | cons repo rest ih => exact ih _ (nodup_keys_mapSet acc repo.ID _ hn)

/-- The map that `cmMap` builds holds every repository ID once. -/
theorem cmMap_keys_nodup (cm : ClusterConfigMessage) : ((cmMap cm).map Prod.fst).Nodup :=
  nodup_keys_foldl_repos cm.Repositories [] List.nodup_nil

theorem nodup_values_foldl_repos (repos : List Repository) (acc : RepoMap)
    (hn : ∀ p ∈ acc, (p.2.map Prod.fst).Nodup) :
    ∀ p ∈ repos.foldl (fun m repo => mapSet m repo.ID (nodeMap repo.Nodes)) acc,
      (p.2.map Prod.fst).Nodup := by
  induction repos generalizing acc with
  | nil => exact hn
  | cons repo rest ih =>
    apply ih
    intro p hp
    rcases mem_mapSet acc repo.ID _ p hp with h | h
    · rw [h]
      exact nodeMap_keys_nodup repo.Nodes
    · exact hn p h

/-- Every inner map of the map that `cmMap` builds holds every node ID once. -/
theorem cmMap_values_nodup (cm : ClusterConfigMessage) (r : String) (ns : NodeMap)
    (h : mapGet (cmMap cm) r = some ns) : (ns.map Prod.fst).Nodup :=
  nodup_values_foldl_repos cm.Repositories [] (by simp) (r, ns) (mem_of_mapGet _ _ _ h)

end Syncthing

namespace Syncthing

/-! The two passes, entry by entry -/

theorem checkNodes_eq_none (share : Nat) (r : String) (rn l : NodeMap) :
    checkNodes share r rn l = none ↔
      ∀ n lf, (n, lf) ∈ l → ∃ rf, mapGet rn n = some rf ∧ lf &&& share = rf &&& share := by
  induction l with
  | nil => simp [checkNodes]
  | cons p rest ih =>
    obtain ⟨n0, lf0⟩ := p
    simp only [checkNodes]
    cases hg : mapGet rn n0 with
    | none =>
      constructor
      · intro h
        cases h
      · intro h
        obtain ⟨rf, hrf, _⟩ := h n0 lf0 (List.mem_cons_self _ _)
        rw [hg] at hrf
        cases hrf
    | some rf0 =>
      by_cases hb : lf0 &&& share = rf0 &&& share
      · simp only [hb, ne_eq, not_true, if_false, ih]
        constructor
        · intro h n lf hm
          rcases List.mem_cons.1 hm with heq | hm'
          · cases heq
            exact ⟨rf0, hg, hb⟩
          · exact h n lf hm'
        · intro h n lf hm
          exact h n lf (List.mem_cons_of_mem _ hm)
      · simp only [hb, ne_eq, not_false_eq_true, if_true]
        constructor
        · intro h
          cases h
        · intro h
          obtain ⟨rf, hrf, hbits⟩ := h n0 lf0 (List.mem_cons_self _ _)
          rw [hg] at hrf
          cases hrf
          exact absurd hbits hb

theorem checkNodes_eq_some (share : Nat) (r : String) (rn l : NodeMap) (e : Mismatch)
    (h : checkNodes share r rn l = some e) :
    ∃ n lf, (n, lf) ∈ l ∧
      ((mapGet rn n = none ∧ e = Mismatch.missingNode n r) ∨
        ∃ rf, mapGet rn n = some rf ∧ lf &&& share ≠ rf &&& share ∧
          e = Mismatch.differentFlags n r) := by
  induction l with
  | nil => simp [checkNodes] at h
  | cons p rest ih =>
    obtain ⟨n0, lf0⟩ := p
    simp only [checkNodes] at h
    cases hg : mapGet rn n0 with
    | none =>
      rw [hg] at h
      simp only [Option.some.injEq] at h
      exact ⟨n0, lf0, List.mem_cons_self _ _, Or.inl ⟨hg, h.symm⟩⟩
    | some rf0 =>
      rw [hg] at h
      by_cases hb : lf0 &&& share = rf0 &&& share
      · simp only [hb, ne_eq, not_true, if_false] at h
        obtain ⟨n, lf, hm, hcase⟩ := ih h
        exact ⟨n, lf, List.mem_cons_of_mem _ hm, hcase⟩
      · simp only [hb, ne_eq, not_false_eq_true, if_true, Option.some.injEq] at h
        exact ⟨n0, lf0, List.mem_cons_self _ _, Or.inr ⟨rf0, hg, hb, h.symm⟩⟩

theorem firstPass_eq_none (share : Nat) (rm lo : RepoMap) :
    firstPass share rm lo = none ↔
      ∀ r ln, (r, ln) ∈ lo → ∃ rn, mapGet rm r = some rn ∧ checkNodes share r rn ln = none := by
  induction lo with
  | nil => simp [firstPass]
  | cons p rest ih =>
    obtain ⟨r0, ln0⟩ := p
    simp only [firstPass]
    cases hg : mapGet rm r0 with
    | none =>
      constructor
      · intro h
        cases h
      · intro h
        obtain ⟨rn, hrn, _⟩ := h r0 ln0 (List.mem_cons_self _ _)
        rw [hg] at hrn
        cases hrn
    | some rn0 =>
      dsimp only
      cases hc : checkNodes share r0 rn0 ln0 with
      | some e =>
        dsimp only
        constructor
        · intro h
          cases h
        · intro h
          obtain ⟨rn, hrn, hnone⟩ := h r0 ln0 (List.mem_cons_self _ _)
          rw [hg] at hrn
          cases hrn
          rw [hc] at hnone
          cases hnone
      | none =>
        dsimp only
        simp only [ih]
        constructor
        · intro h r ln hm
          rcases List.mem_cons.1 hm with heq | hm'
          · cases heq
            exact ⟨rn0, hg, hc⟩
          · exact h r ln hm'
        · intro h r ln hm
          exact h r ln (List.mem_cons_of_mem _ hm)

theorem firstPass_eq_some (share : Nat) (rm lo : RepoMap) (e : Mismatch)
    (h : firstPass share rm lo = some e) :
    ∃ r ln, (r, ln) ∈ lo ∧
      ((mapGet rm r = none ∧ e = Mismatch.missingRepository r) ∨
        ∃ rn, mapGet rm r = some rn ∧ checkNodes share r rn ln = some e) := by
  induction lo with
  | nil => simp [firstPass] at h
  | cons p rest ih =>
    obtain ⟨r0, ln0⟩ := p
    simp only [firstPass] at h
    cases hg : mapGet rm r0 with
    | none =>
      rw [hg] at h
      simp only [Option.some.injEq] at h
      exact ⟨r0, ln0, List.mem_cons_self _ _, Or.inl ⟨hg, h.symm⟩⟩
    | some rn0 =>
      rw [hg] at h
      dsimp only at h
      cases hc : checkNodes share r0 rn0 ln0 with
      | some e' =>
        rw [hc] at h
        simp only [Option.some.injEq] at h
        subst h
        exact ⟨r0, ln0, List.mem_cons_self _ _, Or.inr ⟨rn0, hg, hc⟩⟩
      | none =>
        rw [hc] at h
        dsimp only at h
        obtain ⟨r, ln, hm, hcase⟩ := ih h
        exact ⟨r, ln, List.mem_cons_of_mem _ hm, hcase⟩

theorem checkExtraNodes_eq_none (r : String) (ln l : NodeMap) :
    checkExtraNodes r ln l = none ↔ ∀ n rf, (n, rf) ∈ l → (mapGet ln n).isSome = true := by
  induction l with
  | nil => simp [checkExtraNodes]
  | cons p rest ih =>
    obtain ⟨n0, rf0⟩ := p
    simp only [checkExtraNodes]
    cases hg : mapGet ln n0 with
    | none =>
      constructor
      · intro h
        cases h
      · intro h
        have := h n0 rf0 (List.mem_cons_self _ _)
        rw [hg] at this
        cases this
    | some lf0 =>
      simp only [ih]
      constructor
      · intro h n rf hm
        rcases List.mem_cons.1 hm with heq | hm'
        · cases heq
          rw [hg]
          rfl
        · exact h n rf hm'
      · intro h n rf hm
        exact h n rf (List.mem_cons_of_mem _ hm)

theorem checkExtraNodes_eq_some (r : String) (ln l : NodeMap) (e : Mismatch)
    (h : checkExtraNodes r ln l = some e) :
    ∃ n rf, (n, rf) ∈ l ∧ mapGet ln n = none ∧ e = Mismatch.extraNode n r := by
  induction l with
  | nil => simp [checkExtraNodes] at h
  | cons p rest ih =>
    obtain ⟨n0, rf0⟩ := p
    simp only [checkExtraNodes] at h
    cases hg : mapGet ln n0 with
    | none =>
      rw [hg] at h
      simp only [Option.some.injEq] at h
      exact ⟨n0, rf0, List.mem_cons_self _ _, hg, h.symm⟩
    | some lf0 =>
      rw [hg] at h
      obtain ⟨n, rf, hm, hcase⟩ := ih h
      exact ⟨n, rf, List.mem_cons_of_mem _ hm, hcase⟩

theorem secondPass_eq_none (lm ro : RepoMap) :
    secondPass lm ro = none ↔
      ∀ r rn, (r, rn) ∈ ro → ∃ ln, mapGet lm r = some ln ∧ checkExtraNodes r ln rn = none := by
  induction ro with
  | nil => simp [secondPass]
  | cons p rest ih =>
    obtain ⟨r0, rn0⟩ := p
    simp only [secondPass]
    cases hg : mapGet lm r0 with
    | none =>
      constructor
      · intro h
        cases h
      · intro h
        obtain ⟨ln, hln, _⟩ := h r0 rn0 (List.mem_cons_self _ _)
        rw [hg] at hln
        cases hln
    | some ln0 =>
      dsimp only
      cases hc : checkExtraNodes r0 ln0 rn0 with
      | some e =>
        dsimp only
        constructor
        · intro h
          cases h
        · intro h
          obtain ⟨ln, hln, hnone⟩ := h r0 rn0 (List.mem_cons_self _ _)
          rw [hg] at hln
          cases hln
          rw [hc] at hnone
          cases hnone
      | none =>
        dsimp only
        simp only [ih]
        constructor
        · intro h r rn hm
          rcases List.mem_cons.1 hm with heq | hm'
          · cases heq
            exact ⟨ln0, hg, hc⟩
          · exact h r rn hm'
        · intro h r rn hm
          exact h r rn (List.mem_cons_of_mem _ hm)

theorem secondPass_eq_some (lm ro : RepoMap) (e : Mismatch) (h : secondPass lm ro = some e) :
    ∃ r rn, (r, rn) ∈ ro ∧
      ((mapGet lm r = none ∧ e = Mismatch.extraRepository r) ∨
        ∃ ln, mapGet lm r = some ln ∧ checkExtraNodes r ln rn = some e) := by
  induction ro with
  | nil => simp [secondPass] at h
  | cons p rest ih =>
    obtain ⟨r0, rn0⟩ := p
    simp only [secondPass] at h
    cases hg : mapGet lm r0 with
    | none =>
      rw [hg] at h
      simp only [Option.some.injEq] at h
      exact ⟨r0, rn0, List.mem_cons_self _ _, Or.inl ⟨hg, h.symm⟩⟩
    | some ln0 =>
      rw [hg] at h
      dsimp only at h
      cases hc : checkExtraNodes r0 ln0 rn0 with
      | some e' =>
        rw [hc] at h
        simp only [Option.some.injEq] at h
        subst h
        exact ⟨r0, rn0, List.mem_cons_self _ _, Or.inr ⟨ln0, hg, hc⟩⟩
      | none =>
        rw [hc] at h
        dsimp only at h
        obtain ⟨r, rn, hm, hcase⟩ := ih h
        exact ⟨r, rn, List.mem_cons_of_mem _ hm, hcase⟩

end Syncthing

namespace Syncthing

/-! The two passes, in terms of the maps -/

theorem declaresRepo_iff (m : RepoMap) (r : String) :
    declaresRepo m r ↔ ∃ ns, mapGet m r = some ns := by
  unfold declaresRepo
  exact Option.isSome_iff_exists

theorem declaresNode_iff (m : RepoMap) (r n : String) :
    declaresNode m r n ↔ ∃ f, nodeFlags m r n = some f := by
  unfold declaresNode
  exact Option.isSome_iff_exists

theorem nodeFlags_of_get (m : RepoMap) (r n : String) (ns : NodeMap)
    (h : mapGet m r = some ns) : nodeFlags m r n = mapGet ns n := by
  simp [nodeFlags, h]

theorem nodeFlags_of_none (m : RepoMap) (r n : String) (h : mapGet m r = none) :
    nodeFlags m r n = none := by
  simp [nodeFlags, h]

theorem declaresRepo_of_declaresNode (m : RepoMap) (r n : String) (h : declaresNode m r n) :
    declaresRepo m r := by
  rw [declaresRepo_iff]
  cases hg : mapGet m r with
  | none =>
    rw [declaresNode_iff, nodeFlags_of_none m r n hg] at h
    obtain ⟨f, hf⟩ := h
    cases hf
  | some ns => exact ⟨ns, rfl⟩

theorem traversal_get (m order : RepoMap) (hT : Traversal m order) (r : String) (ns : NodeMap)
    (h : mapGet m r = some ns) : ∃ ns', (r, ns') ∈ order ∧ List.Perm ns' ns := by
  have hk : r ∈ m.map Prod.fst := (mapGet_isSome_iff m r).1 (by rw [h]; rfl)
  have hk' : r ∈ order.map Prod.fst := (hT.1.mem_iff).2 hk
  obtain ⟨p, hp, hpr⟩ := List.mem_map.1 hk'
  obtain ⟨a, ns'⟩ := p
  simp only at hpr
  subst hpr
  obtain ⟨ns2, hns2, hperm⟩ := hT.2 a ns' hp
  rw [h] at hns2
  cases hns2
  exact ⟨ns', hp, hperm⟩

/-- The order in which a map was filled is one of the orders in which it can
be visited. -/
theorem traversal_refl (m : RepoMap) (hn : (m.map Prod.fst).Nodup) : Traversal m m :=
  ⟨List.Perm.refl _, fun r ns' h => ⟨ns', mapGet_of_mem m r ns' hn h, List.Perm.refl _⟩⟩

/-- Every permutation of the entries of a map is an order in which it can be
visited. -/
theorem traversal_of_perm (m order : RepoMap) (hn : (m.map Prod.fst).Nodup)
    (hp : List.Perm order m) : Traversal m order :=
  ⟨hp.map Prod.fst, fun r ns' h =>
    ⟨ns', mapGet_of_mem m r ns' hn (hp.mem_iff.1 h), List.Perm.refl _⟩⟩

theorem firstPass_none_iff (share : Nat) (lm rm lo : RepoMap) (hT : Traversal lm lo)
    (hN : ∀ r ns, mapGet lm r = some ns → (ns.map Prod.fst).Nodup) :
    firstPass share rm lo = none ↔
      ∀ r, declaresRepo lm r → declaresRepo rm r ∧
        ∀ n lf, nodeFlags lm r n = some lf →
          ∃ rf, nodeFlags rm r n = some rf ∧ lf &&& share = rf &&& share := by
  rw [firstPass_eq_none]
  constructor
  · intro h r hr
    obtain ⟨ln, hln⟩ := (declaresRepo_iff lm r).1 hr
    obtain ⟨ln', hmem, hperm⟩ := traversal_get lm lo hT r ln hln
    obtain ⟨rn, hrn, hcheck⟩ := h r ln' hmem
    refine ⟨(declaresRepo_iff rm r).2 ⟨rn, hrn⟩, ?_⟩
    intro n lf hlf
    rw [nodeFlags_of_get lm r n ln hln] at hlf
    rw [nodeFlags_of_get rm r n rn hrn]
    exact (checkNodes_eq_none share r rn ln').1 hcheck n lf
      (hperm.mem_iff.2 (mem_of_mapGet ln n lf hlf))
  · intro h r ln' hmem
    obtain ⟨ln, hln, hperm⟩ := hT.2 r ln' hmem
    obtain ⟨hr, hnodes⟩ := h r ((declaresRepo_iff lm r).2 ⟨ln, hln⟩)
    obtain ⟨rn, hrn⟩ := (declaresRepo_iff rm r).1 hr
    refine ⟨rn, hrn, (checkNodes_eq_none share r rn ln').2 ?_⟩
    intro n lf hm
    have hget : mapGet ln n = some lf :=
      mapGet_of_mem ln n lf (hN r ln hln) (hperm.mem_iff.1 hm)
    have := hnodes n lf (by rw [nodeFlags_of_get lm r n ln hln]; exact hget)
    rw [nodeFlags_of_get rm r n rn hrn] at this
    exact this

theorem secondPass_none_iff (lm rm ro : RepoMap) (hT : Traversal rm ro) :
    secondPass lm ro = none ↔
      ∀ r, declaresRepo rm r → declaresRepo lm r ∧
        ∀ n, declaresNode rm r n → declaresNode lm r n := by
  rw [secondPass_eq_none]
  constructor
  · intro h r hr
    obtain ⟨rn, hrn⟩ := (declaresRepo_iff rm r).1 hr
    obtain ⟨rn', hmem, hperm⟩ := traversal_get rm ro hT r rn hrn
    obtain ⟨ln, hln, hcheck⟩ := h r rn' hmem
    refine ⟨(declaresRepo_iff lm r).2 ⟨ln, hln⟩, ?_⟩
    intro n hn
    obtain ⟨rf, hrf⟩ := (declaresNode_iff rm r n).1 hn
    rw [nodeFlags_of_get rm r n rn hrn] at hrf
    unfold declaresNode
    rw [nodeFlags_of_get lm r n ln hln]
    exact (checkExtraNodes_eq_none r ln rn').1 hcheck n rf
      (hperm.mem_iff.2 (mem_of_mapGet rn n rf hrf))
  · intro h r rn' hmem
    obtain ⟨rn, hrn, hperm⟩ := hT.2 r rn' hmem
    obtain ⟨hr, hnodes⟩ := h r ((declaresRepo_iff rm r).2 ⟨rn, hrn⟩)
    obtain ⟨ln, hln⟩ := (declaresRepo_iff lm r).1 hr
    refine ⟨ln, hln, (checkExtraNodes_eq_none r ln rn').2 ?_⟩
    intro n rf hm
    have hkey : (mapGet rn n).isSome = true :=
      (mapGet_isSome_iff rn n).2 (List.mem_map.2 ⟨(n, rf), hperm.mem_iff.1 hm, rfl⟩)
    have hdecl : declaresNode rm r n := by
      unfold declaresNode
      rw [nodeFlags_of_get rm r n rn hrn]
      exact hkey
    have := hnodes n hdecl
    unfold declaresNode at this
    rw [nodeFlags_of_get lm r n ln hln] at this
    exact this

/-- The comparison finds nothing exactly when the two views agree, whatever
the orders in which the maps are visited. -/
theorem compareMaps_eq_none_iff (share : Nat) (lm rm lo ro : RepoMap)
    (hTl : Traversal lm lo) (hTr : Traversal rm ro)
    (hN : ∀ r ns, mapGet lm r = some ns → (ns.map Prod.fst).Nodup) :
    compareMaps share lm rm lo ro = none ↔ viewsAgree share lm rm := by
  have h1 := firstPass_none_iff share lm rm lo hTl hN
  have h2 := secondPass_none_iff lm rm ro hTr
  have hsplit : compareMaps share lm rm lo ro = none ↔
      firstPass share rm lo = none ∧ secondPass lm ro = none := by
    unfold compareMaps
    cases firstPass share rm lo <;> simp
  rw [hsplit, h1, h2]
  constructor
  · rintro ⟨ha, hb⟩
    refine ⟨fun r => ⟨fun h => (ha r h).1, fun h => (hb r h).1⟩, fun r n => ⟨?_, ?_⟩, ?_⟩
    · intro hn
      obtain ⟨lf, hlf⟩ := (declaresNode_iff lm r n).1 hn
      obtain ⟨rf, hrf, _⟩ := (ha r (declaresRepo_of_declaresNode lm r n hn)).2 n lf hlf
      exact (declaresNode_iff rm r n).2 ⟨rf, hrf⟩
    · intro hn
      exact (hb r (declaresRepo_of_declaresNode rm r n hn)).2 n hn
    · intro r n lf rf hlf hrf
      have hn : declaresNode lm r n := (declaresNode_iff lm r n).2 ⟨lf, hlf⟩
      obtain ⟨rf', hrf', hbits⟩ := (ha r (declaresRepo_of_declaresNode lm r n hn)).2 n lf hlf
      rw [hrf] at hrf'
      cases hrf'
      exact hbits
  · rintro ⟨hrepos, hnodes, hbits⟩
    constructor
    · intro r hr
      refine ⟨(hrepos r).1 hr, ?_⟩
      intro n lf hlf
      obtain ⟨rf, hrf⟩ := (declaresNode_iff rm r n).1
        ((hnodes r n).1 ((declaresNode_iff lm r n).2 ⟨lf, hlf⟩))
      exact ⟨rf, hrf, hbits r n lf rf hlf hrf⟩
    · intro r hr
      exact ⟨(hrepos r).2 hr, fun n hn => (hnodes r n).2 hn⟩

end Syncthing

namespace Syncthing

/-! What a reported mismatch says -/

theorem firstPass_exhibits (share : Nat) (lm rm lo : RepoMap) (hT : Traversal lm lo)
    (hN : ∀ r ns, mapGet lm r = some ns → (ns.map Prod.fst).Nodup) (e : Mismatch)
    (h : firstPass share rm lo = some e) : exhibits share lm rm e := by
  obtain ⟨r, ln', hmem, hcase⟩ := firstPass_eq_some share rm lo e h
  obtain ⟨ln, hln, hperm⟩ := hT.2 r ln' hmem
  have hlr : declaresRepo lm r := (declaresRepo_iff lm r).2 ⟨ln, hln⟩
  rcases hcase with ⟨hnone, he⟩ | ⟨rn, hrn, hcheck⟩
  · subst he
    refine ⟨hlr, ?_⟩
    unfold declaresRepo
    rw [hnone]
    exact Bool.false_ne_true
  · have hrr : declaresRepo rm r := (declaresRepo_iff rm r).2 ⟨rn, hrn⟩
    obtain ⟨n, lf, hm, hnode⟩ := checkNodes_eq_some share r rn ln' e hcheck
    have hget : nodeFlags lm r n = some lf := by
      rw [nodeFlags_of_get lm r n ln hln]
      exact mapGet_of_mem ln n lf (hN r ln hln) (hperm.mem_iff.1 hm)
    rcases hnode with ⟨hnone, he⟩ | ⟨rf, hrf, hbits, he⟩
    · subst he
      refine ⟨hlr, hrr, (declaresNode_iff lm r n).2 ⟨lf, hget⟩, ?_⟩
      unfold declaresNode
      rw [nodeFlags_of_get rm r n rn hrn, hnone]
      exact Bool.false_ne_true
    · subst he
      exact ⟨lf, rf, hget, by rw [nodeFlags_of_get rm r n rn hrn]; exact hrf, hbits⟩

theorem secondPass_exhibits (share : Nat) (lm rm ro : RepoMap) (hT : Traversal rm ro)
    (e : Mismatch) (h : secondPass lm ro = some e) : exhibits share lm rm e := by
  obtain ⟨r, rn', hmem, hcase⟩ := secondPass_eq_some lm ro e h
  obtain ⟨rn, hrn, hperm⟩ := hT.2 r rn' hmem
  have hrr : declaresRepo rm r := (declaresRepo_iff rm r).2 ⟨rn, hrn⟩
  rcases hcase with ⟨hnone, he⟩ | ⟨ln, hln, hcheck⟩
  · subst he
    refine ⟨hrr, ?_⟩
    unfold declaresRepo
    rw [hnone]
    exact Bool.false_ne_true
  · obtain ⟨n, rf, hm, hnone, he⟩ := checkExtraNodes_eq_some r ln rn' e hcheck
    subst he
    refine ⟨(declaresRepo_iff lm r).2 ⟨ln, hln⟩, hrr, ?_, ?_⟩
    · unfold declaresNode
      rw [nodeFlags_of_get rm r n rn hrn]
      exact (mapGet_isSome_iff rn n).2 (List.mem_map.2 ⟨(n, rf), hperm.mem_iff.1 hm, rfl⟩)
    · unfold declaresNode
      rw [nodeFlags_of_get lm r n ln hln, hnone]
      exact Bool.false_ne_true

/-- Whatever the comparison reports is a discrepancy that the two views
have. -/
theorem compareMaps_exhibits (share : Nat) (lm rm lo ro : RepoMap)
    (hTl : Traversal lm lo) (hTr : Traversal rm ro)
    (hN : ∀ r ns, mapGet lm r = some ns → (ns.map Prod.fst).Nodup) (e : Mismatch)
    (h : compareMaps share lm rm lo ro = some e) : exhibits share lm rm e := by
  unfold compareMaps at h
  cases hf : firstPass share rm lo with
  | some e' =>
    rw [hf] at h
    simp only [Option.some.injEq] at h
    subst h
    exact firstPass_exhibits share lm rm lo hTl hN e' hf
  | none =>
    rw [hf] at h
    exact secondPass_exhibits share lm rm ro hTr e h

/-! Share bits -/

theorem mapGet_map_values {β γ : Type} (f : β → γ) (m : List (String × β)) (k : String) :
    mapGet (m.map (fun p => (p.1, f p.2))) k = (mapGet m k).map f := by
  induction m with
  | nil => rfl
  | cons p rest ih =>
    obtain ⟨a, b⟩ := p
    by_cases h : a = k <;> simp [mapGet, h, ih]

theorem mapSet_map_values {β γ : Type} (f : β → γ) (m : List (String × β)) (k : String) (v : β) :
    mapSet (m.map (fun p => (p.1, f p.2))) k (f v) = (mapSet m k v).map (fun p => (p.1, f p.2)) := by
  induction m with
  | nil => rfl
  | cons p rest ih =>
    obtain ⟨a, b⟩ := p
    by_cases h : a = k <;> simp [mapSet, h, ih]

theorem foldl_nodes_share (share : Nat) (nodes : List Node) (acc : NodeMap) :
    (nodes.map (fun node => ({ ID := node.ID, Flags := node.Flags &&& share } : Node))).foldl
        (fun m node => mapSet m node.ID node.Flags) (shareNodes share acc)
      = shareNodes share (nodes.foldl (fun m node => mapSet m node.ID node.Flags) acc) := by
  induction nodes generalizing acc with
  | nil => rfl
  | cons node rest ih =>
    simp only [List.map_cons, List.foldl_cons]
    rw [← ih]
    congr 1
    exact mapSet_map_values (fun x => x &&& share) acc node.ID node.Flags

theorem nodeMap_share (share : Nat) (nodes : List Node) :
    nodeMap (nodes.map (fun node => ({ ID := node.ID, Flags := node.Flags &&& share } : Node)))
      = shareNodes share (nodeMap nodes) :=
  foldl_nodes_share share nodes []

theorem foldl_repos_share (share : Nat) (repos : List Repository) (acc : RepoMap) :
    (repos.map (fun repo => ({
        ID := repo.ID
        Nodes := repo.Nodes.map (fun node => { ID := node.ID, Flags := node.Flags &&& share }) }
          : Repository))).foldl
        (fun m repo => mapSet m repo.ID (nodeMap repo.Nodes)) (shareMap share acc)
      = shareMap share (repos.foldl (fun m repo => mapSet m repo.ID (nodeMap repo.Nodes)) acc) := by
  induction repos generalizing acc with
  | nil => rfl
  | cons repo rest ih =>
    simp only [List.map_cons, List.foldl_cons]
    rw [← ih, nodeMap_share]
    congr 1
    exact mapSet_map_values (shareNodes share) acc repo.ID (nodeMap repo.Nodes)

/-- Reducing the flags of a message to the share bits and normalising it gives
the normalised message with its flags reduced to the share bits. -/
theorem cmMap_shareView (share : Nat) (cm : ClusterConfigMessage) :
    cmMap (shareView share cm) = shareMap share (cmMap cm) :=
  foldl_repos_share share cm.Repositories []

theorem mapGet_shareMap (share : Nat) (m : RepoMap) (r : String) :
    mapGet (shareMap share m) r = (mapGet m r).map (shareNodes share) :=
  mapGet_map_values (shareNodes share) m r

theorem nodeFlags_shareMap (share : Nat) (m : RepoMap) (r n : String) :
    nodeFlags (shareMap share m) r n = (nodeFlags m r n).map (fun x => x &&& share) := by
  unfold nodeFlags
  rw [mapGet_shareMap]
  cases mapGet m r with
  | none => rfl
  | some ns => exact mapGet_map_values (fun x => x &&& share) ns n

/-- Two maps that are equal once their flags are reduced to the share bits
agree. -/
theorem viewsAgree_of_shareMap_eq (share : Nat) (lm rm : RepoMap)
    (h : shareMap share lm = shareMap share rm) : viewsAgree share lm rm := by
  have hrepo : ∀ r, (mapGet lm r).map (shareNodes share) = (mapGet rm r).map (shareNodes share) := by
    intro r
    rw [← mapGet_shareMap, ← mapGet_shareMap, h]
  have hnode : ∀ r n, (nodeFlags lm r n).map (fun x => x &&& share)
      = (nodeFlags rm r n).map (fun x => x &&& share) := by
    intro r n
    rw [← nodeFlags_shareMap, ← nodeFlags_shareMap, h]
  refine ⟨?_, ?_, ?_⟩
  · intro r
    have := hrepo r
    unfold declaresRepo
    cases hl : mapGet lm r <;> cases hr : mapGet rm r <;> simp [hl, hr] at this ⊢
  · intro r n
    have := hnode r n
    unfold declaresNode
    cases hl : nodeFlags lm r n <;> cases hr : nodeFlags rm r n <;> simp [hl, hr] at this ⊢
  · intro r n lf rf hlf hrf
    have := hnode r n
    rw [hlf, hrf] at this
    simpa using this

theorem viewsAgree_refl (share : Nat) (m : RepoMap) : viewsAgree share m m := by
  refine ⟨fun _ => Iff.rfl, fun _ _ => Iff.rfl, ?_⟩
  intro r n lf rf hlf hrf
  rw [hlf] at hrf
  cases hrf
  rfl

end Syncthing

namespace Syncthing

/-! The comparator -/

/-- C5: every non-nil outcome of compareClusterConfig, whatever the order in
which the maps are visited, is one of the five classified mismatches, and the
repository and node that it names exhibit that mismatch: a missing repository
is declared by local and not by remote; a missing node is declared by local in
a repository that both declare, and not by remote; different sharing flags are
the flags of a node that both declare in the repository, with different share
bits; an extra node is declared by remote in a repository that both declare,
and not by local; an extra repository is declared by remote and not by
local. -/
theorem mismatch_exhibited (share : Nat) (loc rem : ClusterConfigMessage)
    (lorder rorder : RepoMap) (hl : Traversal (cmMap loc) lorder)
    (hr : Traversal (cmMap rem) rorder) (e : Mismatch)
    (h : compareClusterConfig share loc rem lorder rorder = some e) :
    exhibits share (cmMap loc) (cmMap rem) e :=
  compareMaps_exhibits share (cmMap loc) (cmMap rem) lorder rorder hl hr
    (cmMap_values_nodup loc) e h

/-- C5 at the configuration of the spec against the same configuration
without its second node: the second node is reported missing, and it is. -/
theorem mismatch_exhibited_witness :
    compareClusterConfig 255 sampleConfig sampleConfigOneNode (cmMap sampleConfig)
        (cmMap sampleConfigOneNode) = some (Mismatch.missingNode "node2" "repoA") ∧
    exhibits 255 (cmMap sampleConfig) (cmMap sampleConfigOneNode)
      (Mismatch.missingNode "node2" "repoA") :=
  ⟨by decide,
    mismatch_exhibited 255 sampleConfig sampleConfigOneNode (cmMap sampleConfig)
      (cmMap sampleConfigOneNode) (traversal_refl _ (cmMap_keys_nodup _))
      (traversal_refl _ (cmMap_keys_nodup _)) (Mismatch.missingNode "node2" "repoA")
      (by decide)⟩

/-- C10: for every cluster config message c, compareClusterConfig(c, c) returns
nil, whatever the order in which the two maps are visited, also when c lists a
repository ID or a node ID more than once. -/
theorem compare_self (share : Nat) (c : ClusterConfigMessage) (lorder rorder : RepoMap)
    (hl : Traversal (cmMap c) lorder) (hr : Traversal (cmMap c) rorder) :
    compareClusterConfig share c c lorder rorder = none :=
  (compareMaps_eq_none_iff share (cmMap c) (cmMap c) lorder rorder hl hr
    (cmMap_values_nodup c)).2 (viewsAgree_refl share (cmMap c))

/-- C10 at a configuration that lists a repository twice and a node twice. -/
theorem compare_self_witness :
    compareClusterConfig 255 duplicateConfig duplicateConfig (cmMap duplicateConfig)
      (cmMap duplicateConfig) = none :=
  compare_self 255 duplicateConfig (cmMap duplicateConfig) (cmMap duplicateConfig)
    (traversal_refl _ (cmMap_keys_nodup _)) (traversal_refl _ (cmMap_keys_nodup _))

end Syncthing

namespace Syncthing

/-! The translator: the wire record of a local record -/

/-- C13: for every local File f, fileInfoFromFile(f) has as many blocks as f,
the i-th wire block carries the size and the hash of the i-th local block
(the offset is dropped, the order kept), modified and version are copied, and
the flags are f.flags when suppressed is false and f.flags with the invalid
bit set when suppressed is true. -/
theorem wire_record (sep : Char) (bit : Nat) (f : File) :
    (fileInfoFromFile sep bit f).Blocks.length = f.Blocks.length ∧
    (∀ i : Nat, (fileInfoFromFile sep bit f).Blocks[i]? =
      (f.Blocks[i]?).map (fun b => ({ Size := b.Size, Hash := b.Hash } : BlockInfo))) ∧
    (fileInfoFromFile sep bit f).Modified = f.Modified ∧
    (fileInfoFromFile sep bit f).Version = f.Version ∧
    (f.Suppressed = false → (fileInfoFromFile sep bit f).Flags = f.Flags) ∧
    (f.Suppressed = true →
      (fileInfoFromFile sep bit f).Flags = f.Flags ||| FlagInvalid bit ∧
      (fileInfoFromFile sep bit f).Flags.testBit bit = true ∧
      ∀ i, i ≠ bit → (fileInfoFromFile sep bit f).Flags.testBit i = f.Flags.testBit i) := by
  have hblocks : (fileInfoFromFile sep bit f).Blocks = wireBlocks f.Blocks := by
    unfold fileInfoFromFile
    cases f.Suppressed <;> rfl
  have hmod : (fileInfoFromFile sep bit f).Modified = f.Modified := by
    unfold fileInfoFromFile
    cases f.Suppressed <;> rfl
  have hver : (fileInfoFromFile sep bit f).Version = f.Version := by
    unfold fileInfoFromFile
    cases f.Suppressed <;> rfl
  refine ⟨?_, ?_, hmod, hver, ?_, ?_⟩
  · rw [hblocks]
    simp [wireBlocks]
  · intro i
    rw [hblocks]
    simp [wireBlocks]
  · intro hs
    simp [fileInfoFromFile, hs]
  · intro hs
    have hw : (fileInfoFromFile sep bit f).Flags = f.Flags ||| FlagInvalid bit := by
      simp [fileInfoFromFile, hs]
    refine ⟨hw, ?_, ?_⟩
    · rw [hw, Nat.testBit_or, testBit_FlagInvalid]
      simp
    · intro i hi
      rw [hw, Nat.testBit_or, testBit_FlagInvalid]
      simp [Ne.symm hi]

/-! The GUI error log -/

/-- C19: starting from a log of at most 5 entries, after showGuiError(e) the
log has at most 5 entries, its last entry carries the message e (and the time
of the call), and the entries before it are the entries of the previous log in
order, without the oldest one when the previous log already held 5. -/
theorem error_log_bounded (now : Nat) (e : String) (log : List guiError)
    (h : log.length ≤ 5) :
    (showGuiError now e log).length ≤ 5 ∧
    (showGuiError now e log).getLast? = some { Time := now, Error := e } ∧
    (showGuiError now e log).dropLast = (if log.length = 5 then log.drop 1 else log) := by
  by_cases h5 : log.length = 5
  · have hres : showGuiError now e log = log.drop 1 ++ [{ Time := now, Error := e }] := by
      have hlen : (log ++ [({ Time := now, Error := e } : guiError)]).length = 6 := by
        simp [h5]
      unfold showGuiError
      simp only [hlen]
      exact List.drop_append_of_le_length (by omega)
    rw [hres, if_pos h5]
    refine ⟨?_, ?_, ?_⟩
    · simp only [List.length_append, List.length_drop, List.length_singleton]
      omega
    · simp
    · simp
  · have hres : showGuiError now e log = log ++ [{ Time := now, Error := e }] := by
      have hlen : ¬ (log ++ [({ Time := now, Error := e } : guiError)]).length > 5 := by
        simp only [List.length_append, List.length_singleton]
        omega
      unfold showGuiError
      simp only [hlen, if_false]
    rw [hres, if_neg h5]
    refine ⟨?_, ?_, ?_⟩
    · simp only [List.length_append, List.length_singleton]
      omega
    · simp
    · simp

/-- C19 at a full log: the oldest entry goes, the new one is the last. -/
theorem error_log_bounded_witness :
    (logOf ["a", "b", "c", "d", "e"]).length ≤ 5 ∧
    showGuiError 9 "f" (logOf ["a", "b", "c", "d", "e"])
      = (logOf ["a", "b", "c", "d", "e"]).drop 1 ++ [{ Time := 9, Error := "f" }] ∧
    (showGuiError 9 "f" (logOf ["a", "b", "c", "d", "e"])).dropLast
      = (if (logOf ["a", "b", "c", "d", "e"]).length = 5
          then (logOf ["a", "b", "c", "d", "e"]).drop 1 else logOf ["a", "b", "c", "d", "e"]) :=
  ⟨by decide, by decide,
    (error_log_bounded 9 "f" (logOf ["a", "b", "c", "d", "e"]) (by decide)).2.2⟩

end Syncthing

namespace Syncthing

/-! The order of the reports -/

theorem firstPass_isFirstPass (share : Nat) (rm lo : RepoMap) (e : Mismatch)
    (h : firstPass share rm lo = some e) : e.isFirstPass = true := by
  obtain ⟨r, ln, _, hcase⟩ := firstPass_eq_some share rm lo e h
  rcases hcase with ⟨_, he⟩ | ⟨rn, _, hcheck⟩
  · rw [he]
    rfl
  · obtain ⟨n, lf, _, hnode⟩ := checkNodes_eq_some share r rn ln e hcheck
    rcases hnode with ⟨_, he⟩ | ⟨rf, _, _, he⟩ <;> rw [he] <;> rfl

theorem secondPass_isSecondPass (lm ro : RepoMap) (e : Mismatch)
    (h : secondPass lm ro = some e) : e.isSecondPass = true := by
  obtain ⟨r, rn, _, hcase⟩ := secondPass_eq_some lm ro e h
  rcases hcase with ⟨_, he⟩ | ⟨ln, _, hcheck⟩
  · rw [he]
    rfl
  · obtain ⟨n, rf, _, _, he⟩ := checkExtraNodes_eq_some r ln rn e hcheck
    rw [he]
    rfl

/-- The first loop finds nothing exactly when the views have no discrepancy
of its kind. -/
theorem firstPass_none_iff_no_discrepancy (share : Nat) (lm rm lo : RepoMap)
    (hT : Traversal lm lo)
    (hN : ∀ r ns, mapGet lm r = some ns → (ns.map Prod.fst).Nodup) :
    firstPass share rm lo = none ↔ ¬ firstPassDiscrepancy share lm rm := by
  rw [firstPass_none_iff share lm rm lo hT hN]
  constructor
  · intro h hd
    rcases hd with ⟨r, hl, hr⟩ | ⟨r, n, hl, _, hr⟩ | ⟨r, n, lf, rf, hlf, hrf, hbits⟩
    · exact hr (h r hl).1
    · obtain ⟨lf, hlf⟩ := (declaresNode_iff lm r n).1 hl
      obtain ⟨rf, hrf, _⟩ := (h r (declaresRepo_of_declaresNode lm r n hl)).2 n lf hlf
      exact hr ((declaresNode_iff rm r n).2 ⟨rf, hrf⟩)
    · have hl : declaresNode lm r n := (declaresNode_iff lm r n).2 ⟨lf, hlf⟩
      obtain ⟨rf', hrf', heq⟩ := (h r (declaresRepo_of_declaresNode lm r n hl)).2 n lf hlf
      rw [hrf] at hrf'
      cases hrf'
      exact hbits heq
  · intro h r hl
    have hr : declaresRepo rm r := by
      by_contra hr
      exact h (Or.inl ⟨r, hl, hr⟩)
    refine ⟨hr, ?_⟩
    intro n lf hlf
    cases hrf : nodeFlags rm r n with
    | none =>
      exfalso
      apply h
      refine Or.inr (Or.inl ⟨r, n, (declaresNode_iff lm r n).2 ⟨lf, hlf⟩, hr, ?_⟩)
      unfold declaresNode
      rw [hrf]
      exact Bool.false_ne_true
    | some rf =>
      refine ⟨rf, rfl, ?_⟩
      by_contra hbits
      exact h (Or.inr (Or.inr ⟨r, n, lf, rf, hlf, hrf, hbits⟩))

/-- With a discrepancy of the first kind the comparison returns what the first
loop returns, an error of the first kind that the views exhibit. -/
theorem compareMaps_first (share : Nat) (lm rm lo ro : RepoMap) (hT : Traversal lm lo)
    (hN : ∀ r ns, mapGet lm r = some ns → (ns.map Prod.fst).Nodup)
    (hd : firstPassDiscrepancy share lm rm) :
    ∃ e, compareMaps share lm rm lo ro = some e ∧ e.isFirstPass = true ∧
      exhibits share lm rm e := by
  cases hf : firstPass share rm lo with
  | none => exact absurd hd ((firstPass_none_iff_no_discrepancy share lm rm lo hT hN).1 hf)
  | some e =>
    refine ⟨e, ?_, firstPass_isFirstPass share rm lo e hf,
      firstPass_exhibits share lm rm lo hT hN e hf⟩
    unfold compareMaps
    rw [hf]

/-- Without a discrepancy of the first kind the comparison returns what the
second loop returns. -/
theorem compareMaps_second (share : Nat) (lm rm lo ro : RepoMap) (hT : Traversal lm lo)
    (hN : ∀ r ns, mapGet lm r = some ns → (ns.map Prod.fst).Nodup)
    (hd : ¬ firstPassDiscrepancy share lm rm) :
    compareMaps share lm rm lo ro = secondPass lm ro := by
  unfold compareMaps
  rw [(firstPass_none_iff_no_discrepancy share lm rm lo hT hN).2 hd]

theorem viewsAgree_symm (share : Nat) (lm rm : RepoMap) (h : viewsAgree share lm rm) :
    viewsAgree share rm lm :=
  ⟨fun r => (h.1 r).symm, fun r n => (h.2.1 r n).symm,
    fun r n lf rf hlf hrf => (h.2.2 r n rf lf hrf hlf).symm⟩

end Syncthing

namespace Syncthing

/-! Extra repositories, missing nodes and the order of the reports -/

theorem declaresRepo_mem_keys (m : RepoMap) (r : String) (h : declaresRepo m r) :
    r ∈ m.map Prod.fst :=
  (mapGet_isSome_iff m r).1 h

theorem declaresNode_mem_keys (m : RepoMap) (r n : String) (ns : NodeMap)
    (hg : mapGet m r = some ns) (h : declaresNode m r n) : n ∈ ns.map Prod.fst := by
  unfold declaresNode at h
  rw [nodeFlags_of_get m r n ns hg] at h
  exact (mapGet_isSome_iff ns n).1 h

/-- C11: for every pair of messages in which remote declares a repository that
local does not declare, compareClusterConfig returns a non-nil mismatch,
whatever the order in which the maps are visited; and when every repository
that local declares is consistent with remote (declared by remote, with the
same nodes and the same share bits) and repoB is the one repository that
remote declares and local does not, the outcome is the extra-repository
mismatch that names repoB. -/
theorem extra_repository (share : Nat) (loc rem : ClusterConfigMessage)
    (lorder rorder : RepoMap) (hl : Traversal (cmMap loc) lorder)
    (hr : Traversal (cmMap rem) rorder) :
    (∀ r, declaresRepo (cmMap rem) r → ¬ declaresRepo (cmMap loc) r →
      compareClusterConfig share loc rem lorder rorder ≠ none) ∧
    ∀ repoB,
      (∀ r, declaresRepo (cmMap loc) r → declaresRepo (cmMap rem) r ∧
        (∀ n, declaresNode (cmMap loc) r n ↔ declaresNode (cmMap rem) r n) ∧
        ∀ n lf rf, nodeFlags (cmMap loc) r n = some lf → nodeFlags (cmMap rem) r n = some rf →
          lf &&& share = rf &&& share) →
      declaresRepo (cmMap rem) repoB → ¬ declaresRepo (cmMap loc) repoB →
      (∀ r, declaresRepo (cmMap rem) r → declaresRepo (cmMap loc) r ∨ r = repoB) →
      compareClusterConfig share loc rem lorder rorder
        = some (Mismatch.extraRepository repoB) := by
  constructor
  · intro r hrem hloc hnone
    have hagree := (compareMaps_eq_none_iff share (cmMap loc) (cmMap rem) lorder rorder hl hr
      (cmMap_values_nodup loc)).1 hnone
    exact hloc ((hagree.1 r).2 hrem)
  · intro repoB hcons hB hnotB honly
    have hfirst : ¬ firstPassDiscrepancy share (cmMap loc) (cmMap rem) := by
      rintro (⟨r, h1, h2⟩ | ⟨r, n, h1, _, h3⟩ | ⟨r, n, lf, rf, hlf, hrf, hbits⟩)
      · exact h2 (hcons r h1).1
      · exact h3 (((hcons r (declaresRepo_of_declaresNode _ r n h1)).2.1 n).1 h1)
      · have hn : declaresNode (cmMap loc) r n := (declaresNode_iff _ r n).2 ⟨lf, hlf⟩
        exact hbits ((hcons r (declaresRepo_of_declaresNode _ r n hn)).2.2 n lf rf hlf hrf)
    have hsecond := compareMaps_second share (cmMap loc) (cmMap rem) lorder rorder hl
      (cmMap_values_nodup loc) hfirst
    unfold compareClusterConfig
    rw [hsecond]
    cases hs : secondPass (cmMap loc) rorder with
    | none =>
      exact absurd (((secondPass_none_iff (cmMap loc) (cmMap rem) rorder hr).1 hs) repoB hB).1
        hnotB
    | some e =>
      have hex := secondPass_exhibits share (cmMap loc) (cmMap rem) rorder hr e hs
      have hkind := secondPass_isSecondPass (cmMap loc) rorder e hs
      cases e with
      | differentFlags n r => cases hkind
      | missingNode n r => cases hkind
      | missingRepository r => cases hkind
      | extraNode n r =>
        obtain ⟨h1, _, h3, h4⟩ := hex
        exact absurd (((hcons r h1).2.1 n).2 h3) h4
      | extraRepository r =>
        obtain ⟨h1, h2⟩ := hex
        rcases honly r h1 with h | h
        · exact absurd h h2
        · rw [h]

/-- C11 at the configuration of the spec against the same configuration with
a second repository, visited from that second repository. -/
theorem extra_repository_witness :
    compareClusterConfig 255 sampleConfig sampleConfigTwoRepos (cmMap sampleConfig)
      twoReposFromSecond = some (Mismatch.extraRepository "repoB") := by
  have hl : Traversal (cmMap sampleConfig) (cmMap sampleConfig) :=
    traversal_refl _ (cmMap_keys_nodup _)
  have hr : Traversal (cmMap sampleConfigTwoRepos) twoReposFromSecond :=
    traversal_of_perm _ _ (cmMap_keys_nodup _) (List.Perm.swap _ _ _)
  have hsame : ∀ n, nodeFlags (cmMap sampleConfig) "repoA" n
      = nodeFlags (cmMap sampleConfigTwoRepos) "repoA" n := fun _ => rfl
  have hkeys : ∀ r, declaresRepo (cmMap sampleConfig) r → r = "repoA" := by
    intro r h
    have hmem := declaresRepo_mem_keys _ r h
    have hk : (cmMap sampleConfig).map Prod.fst = ["repoA"] := by decide
    rw [hk] at hmem
    simpa using hmem
  have hkeys2 : ∀ r, declaresRepo (cmMap sampleConfigTwoRepos) r → r = "repoA" ∨ r = "repoB" := by
    intro r h
    have hmem := declaresRepo_mem_keys _ r h
    have hk : (cmMap sampleConfigTwoRepos).map Prod.fst = ["repoA", "repoB"] := by decide
    rw [hk] at hmem
    simpa using hmem
  apply (extra_repository 255 sampleConfig sampleConfigTwoRepos (cmMap sampleConfig)
    twoReposFromSecond hl hr).2 "repoB"
  · intro r h
    rw [hkeys r h]
    refine ⟨by decide, ?_, ?_⟩
    · intro n
      unfold declaresNode
      rw [hsame]
    · intro n lf rf hlf hrf
      rw [hsame, hrf] at hlf
      cases hlf
      rfl
  · decide
  · decide
  · intro r h
    rcases hkeys2 r h with h | h
    · left
      rw [h]
      decide
    · exact Or.inr h

end Syncthing

namespace Syncthing

/-- C12: for every pair of messages in which local declares node n in
repository r, remote declares r but not n, and there is no other discrepancy
that the first loop looks for (remote declares every repository that local
declares and every other node that local declares, with the same share bits;
in particular when there is no other discrepancy at all), compareClusterConfig
returns the missing-node mismatch that names n and r, whatever the order in
which the maps are visited. -/
theorem missing_node (share : Nat) (loc rem : ClusterConfigMessage)
    (lorder rorder : RepoMap) (hl : Traversal (cmMap loc) lorder) (r n : String)
    (hn : declaresNode (cmMap loc) r n) (hrepo : declaresRepo (cmMap rem) r)
    (hmiss : ¬ declaresNode (cmMap rem) r n)
    (hrepos : ∀ r', declaresRepo (cmMap loc) r' → declaresRepo (cmMap rem) r')
    (hnodes : ∀ r' n', declaresNode (cmMap loc) r' n' →
      (r' = r ∧ n' = n) ∨ declaresNode (cmMap rem) r' n')
    (hbits : ∀ r' n' lf rf, nodeFlags (cmMap loc) r' n' = some lf →
      nodeFlags (cmMap rem) r' n' = some rf → lf &&& share = rf &&& share) :
    compareClusterConfig share loc rem lorder rorder = some (Mismatch.missingNode n r) := by
  obtain ⟨e, he, hkind, hex⟩ := compareMaps_first share (cmMap loc) (cmMap rem) lorder rorder hl
    (cmMap_values_nodup loc) (Or.inr (Or.inl ⟨r, n, hn, hrepo, hmiss⟩))
  unfold compareClusterConfig
  rw [he]
  cases e with
  | differentFlags n' r' =>
    obtain ⟨lf, rf, hlf, hrf, hne⟩ := hex
    exact absurd (hbits r' n' lf rf hlf hrf) hne
  | missingNode n' r' =>
    obtain ⟨_, _, h3, h4⟩ := hex
    rcases hnodes r' n' h3 with ⟨h1, h2⟩ | h
    · rw [h1, h2]
    · exact absurd h h4
  | missingRepository r' =>
    obtain ⟨h1, h2⟩ := hex
    exact absurd (hrepos r' h1) h2
  | extraNode n' r' => cases hkind
  | extraRepository r' => cases hkind

/-- C12 at the example of the spec: local declares two nodes in the
repository, remote only the first. -/
theorem missing_node_witness :
    compareClusterConfig 255 sampleConfig sampleConfigOneNode (cmMap sampleConfig)
      (cmMap sampleConfigOneNode) = some (Mismatch.missingNode "node2" "repoA") := by
  have hkeys : ∀ r, declaresRepo (cmMap sampleConfig) r → r = "repoA" := by
    intro r h
    have hmem := declaresRepo_mem_keys _ r h
    have hk : (cmMap sampleConfig).map Prod.fst = ["repoA"] := by decide
    rw [hk] at hmem
    simpa using hmem
  have hnodekeys : ∀ n, declaresNode (cmMap sampleConfig) "repoA" n → n = "node1" ∨ n = "node2" := by
    intro n h
    have hmem := declaresNode_mem_keys (cmMap sampleConfig) "repoA" n
      [("node1", 1), ("node2", 1)] (by decide) h
    simpa using hmem
  apply missing_node 255 sampleConfig sampleConfigOneNode (cmMap sampleConfig)
    (cmMap sampleConfigOneNode) (traversal_refl _ (cmMap_keys_nodup _)) "repoA" "node2"
  · decide
  · decide
  · decide
  · intro r h
    rw [hkeys r h]
    decide
  · intro r n h
    have hr := hkeys r (declaresRepo_of_declaresNode _ r n h)
    subst hr
    rcases hnodekeys n h with hn | hn
    · right
      rw [hn]
      decide
    · exact Or.inl ⟨rfl, hn⟩
  · intro r n lf rf hlf hrf
    have hd : declaresNode (cmMap sampleConfig) r n := (declaresNode_iff _ r n).2 ⟨lf, hlf⟩
    have hr := hkeys r (declaresRepo_of_declaresNode _ r n hd)
    subst hr
    rcases hnodekeys n hd with hn | hn
    · subst hn
      have h1 : nodeFlags (cmMap sampleConfig) "repoA" "node1" = some 1 := by decide
      have h2 : nodeFlags (cmMap sampleConfigOneNode) "repoA" "node1" = some 1 := by decide
      rw [h1] at hlf
      rw [h2] at hrf
      cases hlf
      cases hrf
      rfl
    · subst hn
      have h2 : nodeFlags (cmMap sampleConfigOneNode) "repoA" "node2" = none := by decide
      rw [h2] at hrf
      cases hrf

/-- C14: compareClusterConfig reports one mismatch, found in the order of the
two loops: whenever the views have a discrepancy that the first loop looks for
(a repository of local missing from remote, a node of local missing from
remote's copy of a repository, or different share bits), the outcome is not
nil and is a missing-repository, missing-node or different-sharing-flags
mismatch that the views exhibit, never an extra-node or extra-repository
mismatch, whatever the order in which the maps are visited and whatever else
differs. -/
theorem first_pass_reported_first (share : Nat) (loc rem : ClusterConfigMessage)
    (lorder rorder : RepoMap) (hl : Traversal (cmMap loc) lorder)
    (hd : firstPassDiscrepancy share (cmMap loc) (cmMap rem)) :
    ∃ e, compareClusterConfig share loc rem lorder rorder = some e ∧
      ((∃ r, e = Mismatch.missingRepository r) ∨ (∃ n r, e = Mismatch.missingNode n r) ∨
        (∃ n r, e = Mismatch.differentFlags n r)) ∧
      (∀ n r, e ≠ Mismatch.extraNode n r) ∧ (∀ r, e ≠ Mismatch.extraRepository r) ∧
      exhibits share (cmMap loc) (cmMap rem) e := by
  obtain ⟨e, he, hkind, hex⟩ := compareMaps_first share (cmMap loc) (cmMap rem) lorder rorder hl
    (cmMap_values_nodup loc) hd
  refine ⟨e, he, ?_, ?_, ?_, hex⟩
  · cases e with
    | differentFlags n r => exact Or.inr (Or.inr ⟨n, r, rfl⟩)
    | missingNode n r => exact Or.inr (Or.inl ⟨n, r, rfl⟩)
    | missingRepository r => exact Or.inl ⟨r, rfl⟩
    | extraNode n r => cases hkind
    | extraRepository r => cases hkind
  · intro n r h
    rw [h] at hkind
    cases hkind
  · intro r h
    rw [h] at hkind
    cases hkind

/-- C14 at a pair with a missing node and an extra node: the missing node is
what is reported. -/
theorem first_pass_reported_first_witness :
    declaresNode (cmMap sampleConfigOtherNode) "repoA" "node3" ∧
    ¬ declaresNode (cmMap sampleConfig) "repoA" "node3" ∧
    ∃ e, compareClusterConfig 255 sampleConfig sampleConfigOtherNode (cmMap sampleConfig)
        (cmMap sampleConfigOtherNode) = some e ∧
      ((∃ r, e = Mismatch.missingRepository r) ∨ (∃ n r, e = Mismatch.missingNode n r) ∨
        (∃ n r, e = Mismatch.differentFlags n r)) := by
  obtain ⟨e, he, hform, _⟩ := first_pass_reported_first 255 sampleConfig sampleConfigOtherNode
    (cmMap sampleConfig) (cmMap sampleConfigOtherNode) (traversal_refl _ (cmMap_keys_nodup _))
    (Or.inr (Or.inl ⟨"repoA", "node2", by decide, by decide, by decide⟩))
  exact ⟨by decide, by decide, e, he, hform⟩

/-- C15, as stated, fails: the second loop looks for extra nodes and extra
repositories in one traversal of the remote map, so that with no discrepancy
of the first kind, an extra node in a shared repository and an extra
repository, the extra repository is reported when the loop visits it first
(and the extra node when the loop visits the shared repository first). -/
theorem extra_repository_before_extra_node :
    ¬ firstPassDiscrepancy 255 (cmMap sampleConfigOneNode) (cmMap sampleConfigTwoRepos) ∧
    (declaresRepo (cmMap sampleConfigOneNode) "repoA" ∧
      declaresRepo (cmMap sampleConfigTwoRepos) "repoA" ∧
      declaresNode (cmMap sampleConfigTwoRepos) "repoA" "node2" ∧
      ¬ declaresNode (cmMap sampleConfigOneNode) "repoA" "node2") ∧
    (declaresRepo (cmMap sampleConfigTwoRepos) "repoB" ∧
      ¬ declaresRepo (cmMap sampleConfigOneNode) "repoB") ∧
    Traversal (cmMap sampleConfigOneNode) (cmMap sampleConfigOneNode) ∧
    Traversal (cmMap sampleConfigTwoRepos) twoReposFromSecond ∧
    compareClusterConfig 255 sampleConfigOneNode sampleConfigTwoRepos
      (cmMap sampleConfigOneNode) twoReposFromSecond = some (Mismatch.extraRepository "repoB") ∧
    Traversal (cmMap sampleConfigTwoRepos) (cmMap sampleConfigTwoRepos) ∧
    compareClusterConfig 255 sampleConfigOneNode sampleConfigTwoRepos
      (cmMap sampleConfigOneNode) (cmMap sampleConfigTwoRepos)
        = some (Mismatch.extraNode "node2" "repoA") := by
  have hl : Traversal (cmMap sampleConfigOneNode) (cmMap sampleConfigOneNode) :=
    traversal_refl _ (cmMap_keys_nodup _)
  refine ⟨?_, by decide, by decide, hl,
    traversal_of_perm _ _ (cmMap_keys_nodup _) (List.Perm.swap _ _ _), by decide,
    traversal_refl _ (cmMap_keys_nodup _), by decide⟩
  exact (firstPass_none_iff_no_discrepancy 255 (cmMap sampleConfigOneNode)
    (cmMap sampleConfigTwoRepos) (cmMap sampleConfigOneNode) hl
    (cmMap_values_nodup sampleConfigOneNode)).1 (by decide)

/-- C15 (amended): for every pair of messages with no discrepancy of the first
kind in which remote declares an extra node in a repository that both declare
and also declares a repository that local does not declare, compareClusterConfig
reports an extra-node or an extra-repository mismatch that the views exhibit;
which of the two depends on the order in which the second loop visits the
remote map: when the first repository it visits is one that local does not
declare, the report is the extra-repository mismatch for that repository. -/
theorem second_pass_report (share : Nat) (loc rem : ClusterConfigMessage)
    (lorder rorder : RepoMap) (hl : Traversal (cmMap loc) lorder)
    (hr : Traversal (cmMap rem) rorder)
    (hfirst : ¬ firstPassDiscrepancy share (cmMap loc) (cmMap rem))
    (_hnode : ∃ r n, declaresRepo (cmMap loc) r ∧ declaresRepo (cmMap rem) r ∧
      declaresNode (cmMap rem) r n ∧ ¬ declaresNode (cmMap loc) r n)
    (hrepo : ∃ r, declaresRepo (cmMap rem) r ∧ ¬ declaresRepo (cmMap loc) r) :
    (∃ e, compareClusterConfig share loc rem lorder rorder = some e ∧
      ((∃ n r, e = Mismatch.extraNode n r) ∨ (∃ r, e = Mismatch.extraRepository r)) ∧
      exhibits share (cmMap loc) (cmMap rem) e) ∧
    ∀ r ns rest, rorder = (r, ns) :: rest → ¬ declaresRepo (cmMap loc) r →
      compareClusterConfig share loc rem lorder rorder = some (Mismatch.extraRepository r) := by
  have hsecond := compareMaps_second share (cmMap loc) (cmMap rem) lorder rorder hl
    (cmMap_values_nodup loc) hfirst
  unfold compareClusterConfig
  rw [hsecond]
  constructor
  · cases hs : secondPass (cmMap loc) rorder with
    | none =>
      obtain ⟨r, h1, h2⟩ := hrepo
      exact absurd (((secondPass_none_iff (cmMap loc) (cmMap rem) rorder hr).1 hs) r h1).1 h2
    | some e =>
      have hkind := secondPass_isSecondPass (cmMap loc) rorder e hs
      refine ⟨e, rfl, ?_, secondPass_exhibits share (cmMap loc) (cmMap rem) rorder hr e hs⟩
      cases e with
      | differentFlags n r => cases hkind
      | missingNode n r => cases hkind
      | missingRepository r => cases hkind
      | extraNode n r => exact Or.inl ⟨n, r, rfl⟩
      | extraRepository r => exact Or.inr ⟨r, rfl⟩
  · intro r ns rest horder hnot
    have hnone : mapGet (cmMap loc) r = none := by
      cases hg : mapGet (cmMap loc) r with
      | none => rfl
      | some v => exact absurd ((declaresRepo_iff _ r).2 ⟨v, hg⟩) hnot
    rw [horder]
    simp only [secondPass, hnone]

/-- The amended C15 at the pair of the counterexample, visited from the extra
repository. -/
theorem second_pass_report_witness :
    compareClusterConfig 255 sampleConfigOneNode sampleConfigTwoRepos
      (cmMap sampleConfigOneNode) twoReposFromSecond = some (Mismatch.extraRepository "repoB") := by
  have hl : Traversal (cmMap sampleConfigOneNode) (cmMap sampleConfigOneNode) :=
    traversal_refl _ (cmMap_keys_nodup _)
  have hfirst : ¬ firstPassDiscrepancy 255 (cmMap sampleConfigOneNode)
      (cmMap sampleConfigTwoRepos) :=
    (firstPass_none_iff_no_discrepancy 255 (cmMap sampleConfigOneNode)
      (cmMap sampleConfigTwoRepos) (cmMap sampleConfigOneNode) hl
      (cmMap_values_nodup sampleConfigOneNode)).1 (by decide)
  exact (second_pass_report 255 sampleConfigOneNode sampleConfigTwoRepos
    (cmMap sampleConfigOneNode) twoReposFromSecond hl
    (traversal_of_perm _ _ (cmMap_keys_nodup _) (List.Perm.swap _ _ _)) hfirst
    ⟨"repoA", "node2", by decide, by decide, by decide, by decide⟩
    ⟨"repoB", by decide, by decide⟩).2 "repoB" [("node3", 1)]
    [("repoA", [("node1", 1), ("node2", 1)])] rfl (by decide)

/-- C16: the verdict is symmetric: for every pair of messages a and b,
compareClusterConfig(a, b) returns nil if and only if compareClusterConfig(b, a)
returns nil, whatever the orders in which the maps are visited in the two
calls. -/
theorem verdict_symmetric (share : Nat) (a b : ClusterConfigMessage)
    (aorder border border' aorder' : RepoMap)
    (ha : Traversal (cmMap a) aorder) (hb : Traversal (cmMap b) border)
    (hb' : Traversal (cmMap b) border') (ha' : Traversal (cmMap a) aorder') :
    compareClusterConfig share a b aorder border = none ↔
      compareClusterConfig share b a border' aorder' = none := by
  unfold compareClusterConfig
  rw [compareMaps_eq_none_iff share (cmMap a) (cmMap b) aorder border ha hb
      (cmMap_values_nodup a),
    compareMaps_eq_none_iff share (cmMap b) (cmMap a) border' aorder' hb' ha'
      (cmMap_values_nodup b)]
  exact ⟨viewsAgree_symm share _ _, viewsAgree_symm share _ _⟩

/-- C16 at a pair that differs by an extra repository: a mismatch both ways,
of different kinds. -/
theorem verdict_symmetric_witness :
    (compareClusterConfig 255 sampleConfig sampleConfigTwoRepos (cmMap sampleConfig)
        (cmMap sampleConfigTwoRepos) = none ↔
      compareClusterConfig 255 sampleConfigTwoRepos sampleConfig (cmMap sampleConfigTwoRepos)
        (cmMap sampleConfig) = none) ∧
    compareClusterConfig 255 sampleConfig sampleConfigTwoRepos (cmMap sampleConfig)
      (cmMap sampleConfigTwoRepos) = some (Mismatch.extraRepository "repoB") ∧
    compareClusterConfig 255 sampleConfigTwoRepos sampleConfig (cmMap sampleConfigTwoRepos)
      (cmMap sampleConfig) = some (Mismatch.missingRepository "repoB") :=
  ⟨verdict_symmetric 255 sampleConfig sampleConfigTwoRepos (cmMap sampleConfig)
    (cmMap sampleConfigTwoRepos) (cmMap sampleConfigTwoRepos) (cmMap sampleConfig)
    (traversal_refl _ (cmMap_keys_nodup _)) (traversal_refl _ (cmMap_keys_nodup _))
    (traversal_refl _ (cmMap_keys_nodup _)) (traversal_refl _ (cmMap_keys_nodup _)),
    by decide, by decide⟩

end Syncthing

namespace Syncthing

/-! Duplicates: the last occurrence wins -/

theorem lastWith_eq_none_iff {α : Type} (p : α → Bool) (l : List α) :
    lastWith p l = none ↔ ∀ x ∈ l, p x = false := by
  induction l with
  | nil => simp [lastWith]
  | cons a rest ih =>
    simp only [lastWith, List.mem_cons, forall_eq_or_imp]
    cases hl : lastWith p rest with
    | some y =>
      constructor
      · intro h
        cases h
      · intro h
        rw [ih.2 h.2] at hl
        cases hl
    | none =>
      have hall := ih.1 hl
      cases hp : p a
      · simp only [Bool.false_eq_true, if_false, true_and, true_iff]
        exact hall
      · simp

theorem lastWith_some {α : Type} (p : α → Bool) (l : List α) (x : α)
    (h : lastWith p l = some x) : x ∈ l ∧ p x = true := by
  induction l with
  | nil => simp [lastWith] at h
  | cons a rest ih =>
    simp only [lastWith] at h
    cases hl : lastWith p rest with
    | some y =>
      rw [hl] at h
      simp only [Option.some.injEq] at h
      subst h
      exact ⟨List.mem_cons_of_mem _ (ih hl).1, (ih hl).2⟩
    | none =>
      rw [hl] at h
      cases hp : p a with
      | false => simp [hp] at h
      | true =>
        simp only [hp, if_true, Option.some.injEq] at h
        subst h
        exact ⟨List.mem_cons_self _ _, hp⟩

theorem mapGet_foldl_nodes (nodes : List Node) (acc : NodeMap) (n : String) :
    mapGet (nodes.foldl (fun m node => mapSet m node.ID node.Flags) acc) n =
      ((lastWith (fun x => decide (x.ID = n)) nodes).map Node.Flags).or (mapGet acc n) := by
  induction nodes generalizing acc with
  | nil => simp [lastWith]
  | cons a rest ih =>
    simp only [List.foldl_cons, ih, lastWith, mapGet_mapSet]
    cases lastWith (fun x => decide (x.ID = n)) rest with
    | some y => simp
    | none =>
      by_cases h : a.ID = n <;> simp [h]

/-- The flags that an inner map of `cmMap` holds for a node ID are those of
the last entry of the repository with that ID. -/
theorem mapGet_nodeMap (nodes : List Node) (n : String) :
    mapGet (nodeMap nodes) n = (lastWith (fun x => decide (x.ID = n)) nodes).map Node.Flags := by
  unfold nodeMap
  rw [mapGet_foldl_nodes]
  cases lastWith (fun x => decide (x.ID = n)) nodes <;> simp [mapGet]

theorem mapGet_foldl_repos (repos : List Repository) (acc : RepoMap) (r : String) :
    mapGet (repos.foldl (fun m repo => mapSet m repo.ID (nodeMap repo.Nodes)) acc) r =
      ((lastWith (fun x => decide (x.ID = r)) repos).map (fun x => nodeMap x.Nodes)).or
        (mapGet acc r) := by
  induction repos generalizing acc with
  | nil => simp [lastWith]
  | cons a rest ih =>
    simp only [List.foldl_cons, ih, lastWith, mapGet_mapSet]
    cases lastWith (fun x => decide (x.ID = r)) rest with
    | some y => simp
    | none =>
      by_cases h : a.ID = r <;> simp [h]

/-- The inner map that `cmMap` holds for a repository ID is built from the
nodes of the last entry of the message with that ID alone. -/
theorem mapGet_cmMap (cm : ClusterConfigMessage) (r : String) :
    mapGet (cmMap cm) r =
      (lastWith (fun x => decide (x.ID = r)) cm.Repositories).map (fun x => nodeMap x.Nodes) := by
  unfold cmMap
  rw [mapGet_foldl_repos]
  cases lastWith (fun x => decide (x.ID = r)) cm.Repositories <;> simp [mapGet]

theorem lastWith_dropEarlierNodes (nodes : List Node) (n : String) :
    lastWith (fun x => decide (x.ID = n)) (dropEarlierNodes nodes)
      = lastWith (fun x => decide (x.ID = n)) nodes := by
  induction nodes with
  | nil => rfl
  | cons a rest ih =>
    simp only [dropEarlierNodes]
    by_cases hany : rest.any (fun y => decide (y.ID = a.ID)) = true
    · simp only [hany, if_true, ih, lastWith]
      cases hl : lastWith (fun x => decide (x.ID = n)) rest with
      | some y => rfl
      | none =>
        have hnone := (lastWith_eq_none_iff _ rest).1 hl
        obtain ⟨y, hy, hya⟩ := List.any_eq_true.1 hany
        have hyn := hnone y hy
        simp only [decide_eq_true_eq] at hya
        simp only [decide_eq_false_iff_not] at hyn
        have : ¬ a.ID = n := fun h => hyn (hya.trans h)
        simp [this]
    · simp only [hany, if_false, lastWith, ih, Bool.false_eq_true]

theorem lastWith_dropEarlierRepos (repos : List Repository) (r : String) :
    lastWith (fun x => decide (x.ID = r)) (dropEarlierRepos repos)
      = (lastWith (fun x => decide (x.ID = r)) repos).map
          (fun x => { ID := x.ID, Nodes := dropEarlierNodes x.Nodes }) := by
  induction repos with
  | nil => rfl
  | cons a rest ih =>
    simp only [dropEarlierRepos]
    by_cases hany : rest.any (fun y => decide (y.ID = a.ID)) = true
    · simp only [hany, if_true, ih, lastWith]
      cases hl : lastWith (fun x => decide (x.ID = r)) rest with
      | some y => rfl
      | none =>
        have hnone := (lastWith_eq_none_iff _ rest).1 hl
        obtain ⟨y, hy, hya⟩ := List.any_eq_true.1 hany
        have hyn := hnone y hy
        simp only [decide_eq_true_eq] at hya
        simp only [decide_eq_false_iff_not] at hyn
        have : ¬ a.ID = r := fun h => hyn (hya.trans h)
        simp [this]
    · simp only [hany, if_false, lastWith, ih, Bool.false_eq_true]
      cases lastWith (fun x => decide (x.ID = r)) rest with
      | some y => rfl
      | none =>
        by_cases h : a.ID = r <;> simp [h]

/-- Removing the earlier duplicates of a message changes no lookup in its
map. -/
theorem sameLookups_withoutEarlierDuplicates (cm : ClusterConfigMessage) :
    sameLookups (cmMap (withoutEarlierDuplicates cm)) (cmMap cm) := by
  constructor
  · intro r
    unfold declaresRepo
    rw [mapGet_cmMap, mapGet_cmMap]
    simp only [withoutEarlierDuplicates, lastWith_dropEarlierRepos]
    cases lastWith (fun x => decide (x.ID = r)) cm.Repositories <;> simp
  · intro r n
    unfold nodeFlags
    rw [mapGet_cmMap, mapGet_cmMap]
    simp only [withoutEarlierDuplicates, lastWith_dropEarlierRepos]
    cases lastWith (fun x => decide (x.ID = r)) cm.Repositories with
    | none => rfl
    | some x =>
      simp only [Option.map_some', Option.some_bind]
      rw [mapGet_nodeMap, mapGet_nodeMap, lastWith_dropEarlierNodes]

end Syncthing

namespace Syncthing

/-! Maps that answer every lookup alike -/

theorem sameLookups_symm (m m' : RepoMap) (h : sameLookups m m') : sameLookups m' m :=
  ⟨fun r => (h.1 r).symm, fun r n => (h.2 r n).symm⟩

theorem sameLookups_get (m m' : RepoMap) (h : sameLookups m m') (r : String) (ns : NodeMap)
    (hg : mapGet m r = some ns) :
    ∃ ns', mapGet m' r = some ns' ∧ ∀ n, mapGet ns n = mapGet ns' n := by
  obtain ⟨ns', hg'⟩ := (declaresRepo_iff m' r).1 ((h.1 r).1 ((declaresRepo_iff m r).2 ⟨ns, hg⟩))
  refine ⟨ns', hg', ?_⟩
  intro n
  rw [← nodeFlags_of_get m r n ns hg, ← nodeFlags_of_get m' r n ns' hg']
  exact h.2 r n

theorem sameLookups_none (m m' : RepoMap) (h : sameLookups m m') (r : String)
    (hg : mapGet m r = none) : mapGet m' r = none := by
  cases hg' : mapGet m' r with
  | none => rfl
  | some ns' =>
    obtain ⟨ns, hns⟩ := (declaresRepo_iff m r).1 ((h.1 r).2 ((declaresRepo_iff m' r).2 ⟨ns', hg'⟩))
    rw [hg] at hns
    cases hns

theorem checkNodes_congr (share : Nat) (r : String) (rn rn' l : NodeMap)
    (h : ∀ n, mapGet rn n = mapGet rn' n) :
    checkNodes share r rn l = checkNodes share r rn' l := by
  induction l with
  | nil => rfl
  | cons p rest ih =>
    obtain ⟨n0, lf0⟩ := p
    simp only [checkNodes, h n0, ih]

theorem checkExtraNodes_congr (r : String) (ln ln' l : NodeMap)
    (h : ∀ n, mapGet ln n = mapGet ln' n) :
    checkExtraNodes r ln l = checkExtraNodes r ln' l := by
  induction l with
  | nil => rfl
  | cons p rest ih =>
    obtain ⟨n0, rf0⟩ := p
    simp only [checkExtraNodes, h n0, ih]

theorem firstPass_congr (share : Nat) (rm rm' lo : RepoMap) (h : sameLookups rm rm') :
    firstPass share rm lo = firstPass share rm' lo := by
  induction lo with
  | nil => rfl
  | cons p rest ih =>
    obtain ⟨r0, ln0⟩ := p
    simp only [firstPass]
    cases hg : mapGet rm r0 with
    | none => rw [sameLookups_none rm rm' h r0 hg]
    | some rn =>
      obtain ⟨rn', hg', hsame⟩ := sameLookups_get rm rm' h r0 rn hg
      rw [hg']
      simp only [checkNodes_congr share r0 rn rn' ln0 hsame, ih]

theorem secondPass_congr (lm lm' ro : RepoMap) (h : sameLookups lm lm') :
    secondPass lm ro = secondPass lm' ro := by
  induction ro with
  | nil => rfl
  | cons p rest ih =>
    obtain ⟨r0, rn0⟩ := p
    simp only [secondPass]
    cases hg : mapGet lm r0 with
    | none => rw [sameLookups_none lm lm' h r0 hg]
    | some ln =>
      obtain ⟨ln', hg', hsame⟩ := sameLookups_get lm lm' h r0 ln hg
      rw [hg']
      simp only [checkExtraNodes_congr r0 ln ln' rn0 hsame, ih]

/-- The comparison only looks things up in the two maps: maps that answer every
lookup alike give the same outcome, for the same visiting orders. -/
theorem compareMaps_congr (share : Nat) (lm lm' rm rm' lo ro : RepoMap)
    (hl : sameLookups lm lm') (hr : sameLookups rm rm') :
    compareMaps share lm rm lo ro = compareMaps share lm' rm' lo ro := by
  unfold compareMaps
  rw [firstPass_congr share rm rm' lo hr, secondPass_congr lm lm' ro hl]

theorem perm_of_same_mapGet (ns ns' : NodeMap) (hn : (ns.map Prod.fst).Nodup)
    (hn' : (ns'.map Prod.fst).Nodup) (h : ∀ n, mapGet ns n = mapGet ns' n) :
    List.Perm ns ns' := by
  rw [List.perm_ext_iff_of_nodup (List.Nodup.of_map _ hn) (List.Nodup.of_map _ hn')]
  rintro ⟨n, f⟩
  constructor
  · intro hm
    apply mem_of_mapGet
    rw [← h n]
    exact mapGet_of_mem ns n f hn hm
  · intro hm
    apply mem_of_mapGet
    rw [h n]
    exact mapGet_of_mem ns' n f hn' hm

theorem traversal_of_sameLookups (m m' order : RepoMap) (h : sameLookups m m')
    (hk : (m.map Prod.fst).Nodup) (hk' : (m'.map Prod.fst).Nodup)
    (hN : ∀ r ns, mapGet m r = some ns → (ns.map Prod.fst).Nodup)
    (hN' : ∀ r ns, mapGet m' r = some ns → (ns.map Prod.fst).Nodup)
    (hT : Traversal m order) : Traversal m' order := by
  constructor
  · refine hT.1.trans ?_
    rw [List.perm_ext_iff_of_nodup hk hk']
    intro r
    rw [← mapGet_isSome_iff, ← mapGet_isSome_iff]
    exact h.1 r
  · intro r ns' hm
    obtain ⟨ns, hg, hperm⟩ := hT.2 r ns' hm
    obtain ⟨ns2, hg2, hsame⟩ := sameLookups_get m m' h r ns hg
    exact ⟨ns2, hg2, hperm.trans (perm_of_same_mapGet ns ns2 (hN r ns hg) (hN' r ns2 hg2) hsame)⟩

/-- Messages whose maps answer every lookup alike have the same visiting
orders. -/
theorem traversal_congr (c c' : ClusterConfigMessage) (order : RepoMap)
    (h : sameLookups (cmMap c) (cmMap c')) :
    Traversal (cmMap c) order ↔ Traversal (cmMap c') order :=
  ⟨traversal_of_sameLookups _ _ order h (cmMap_keys_nodup c) (cmMap_keys_nodup c')
      (cmMap_values_nodup c) (cmMap_values_nodup c'),
    traversal_of_sameLookups _ _ order (sameLookups_symm _ _ h) (cmMap_keys_nodup c')
      (cmMap_keys_nodup c) (cmMap_values_nodup c') (cmMap_values_nodup c)⟩

theorem mem_dropEarlierNodes (nodes : List Node) (y : Node)
    (h : y ∈ dropEarlierNodes nodes) : y ∈ nodes := by
  induction nodes with
  | nil => simp [dropEarlierNodes] at h
  | cons a rest ih =>
    simp only [dropEarlierNodes] at h
    by_cases hany : rest.any (fun z => decide (z.ID = a.ID)) = true
    · simp only [hany, if_true] at h
      exact List.mem_cons_of_mem _ (ih h)
    · simp only [hany, if_false, List.mem_cons, Bool.false_eq_true] at h
      rcases h with h | h
      · rw [h]
        exact List.mem_cons_self _ _
      · exact List.mem_cons_of_mem _ (ih h)

theorem nodup_dropEarlierNodes (nodes : List Node) :
    ((dropEarlierNodes nodes).map Node.ID).Nodup := by
  induction nodes with
  | nil => simp [dropEarlierNodes]
  | cons a rest ih =>
    simp only [dropEarlierNodes]
    by_cases hany : rest.any (fun z => decide (z.ID = a.ID)) = true
    · simp only [hany, if_true]
      exact ih
    · simp only [hany, if_false, List.map_cons, List.nodup_cons, Bool.false_eq_true]
      refine ⟨?_, ih⟩
      intro hmem
      obtain ⟨y, hy, hya⟩ := List.mem_map.1 hmem
      apply hany
      exact List.any_eq_true.2 ⟨y, mem_dropEarlierNodes rest y hy, by simpa using hya⟩

theorem mem_dropEarlierRepos (repos : List Repository) (y : Repository)
    (h : y ∈ dropEarlierRepos repos) :
    ∃ x ∈ repos, y = { ID := x.ID, Nodes := dropEarlierNodes x.Nodes } := by
  induction repos with
  | nil => simp [dropEarlierRepos] at h
  | cons a rest ih =>
    simp only [dropEarlierRepos] at h
    by_cases hany : rest.any (fun z => decide (z.ID = a.ID)) = true
    · simp only [hany, if_true] at h
      obtain ⟨x, hx, hxy⟩ := ih h
      exact ⟨x, List.mem_cons_of_mem _ hx, hxy⟩
    · simp only [hany, if_false, List.mem_cons, Bool.false_eq_true] at h
      rcases h with h | h
      · exact ⟨a, List.mem_cons_self _ _, h⟩
      · obtain ⟨x, hx, hxy⟩ := ih h
        exact ⟨x, List.mem_cons_of_mem _ hx, hxy⟩

theorem nodup_dropEarlierRepos (repos : List Repository) :
    ((dropEarlierRepos repos).map Repository.ID).Nodup := by
  induction repos with
  | nil => simp [dropEarlierRepos]
  | cons a rest ih =>
    simp only [dropEarlierRepos]
    by_cases hany : rest.any (fun z => decide (z.ID = a.ID)) = true
    · simp only [hany, if_true]
      exact ih
    · simp only [hany, if_false, List.map_cons, List.nodup_cons, Bool.false_eq_true]
      refine ⟨?_, ih⟩
      intro hmem
      obtain ⟨y, hy, hya⟩ := List.mem_map.1 hmem
      obtain ⟨x, hx, hxy⟩ := mem_dropEarlierRepos rest y hy
      apply hany
      refine List.any_eq_true.2 ⟨x, hx, ?_⟩
      rw [hxy] at hya
      simpa using hya

/-- The message with all earlier duplicates removed has no duplicates. -/
theorem noDuplicates_withoutEarlierDuplicates (cm : ClusterConfigMessage) :
    noDuplicates (withoutEarlierDuplicates cm) := by
  refine ⟨nodup_dropEarlierRepos cm.Repositories, ?_⟩
  intro repo hrepo
  obtain ⟨x, _, hxy⟩ := mem_dropEarlierRepos cm.Repositories repo hrepo
  rw [hxy]
  exact nodup_dropEarlierNodes x.Nodes

/-- C17: cmMap keeps the last occurrence: the inner map of a repository ID is
built from the nodes of the last entry of the message with that ID alone
(the nodes of earlier entries are discarded, not merged), the flags of a node
ID are those of its last entry in that repository, and compareClusterConfig
gives on two messages the outcome that it gives on the messages with all
earlier duplicates removed: the same visiting orders, and for each of them
the same result. -/
theorem last_occurrence_wins (share : Nat) (loc rem : ClusterConfigMessage) :
    (∀ c : ClusterConfigMessage, ∀ r, mapGet (cmMap c) r =
      (lastWith (fun x => decide (x.ID = r)) c.Repositories).map (fun x => nodeMap x.Nodes)) ∧
    (∀ nodes n, mapGet (nodeMap nodes) n =
      (lastWith (fun x => decide (x.ID = n)) nodes).map Node.Flags) ∧
    (∀ lorder rorder,
      compareClusterConfig share (withoutEarlierDuplicates loc) (withoutEarlierDuplicates rem)
        lorder rorder = compareClusterConfig share loc rem lorder rorder) ∧
    (∀ order, Traversal (cmMap (withoutEarlierDuplicates loc)) order ↔
      Traversal (cmMap loc) order) ∧
    (∀ order, Traversal (cmMap (withoutEarlierDuplicates rem)) order ↔
      Traversal (cmMap rem) order) ∧
    noDuplicates (withoutEarlierDuplicates loc) ∧ noDuplicates (withoutEarlierDuplicates rem) := by
  refine ⟨mapGet_cmMap, mapGet_nodeMap, ?_, ?_, ?_, ?_, ?_⟩
  · intro lorder rorder
    exact compareMaps_congr share _ _ _ _ lorder rorder
      (sameLookups_withoutEarlierDuplicates loc) (sameLookups_withoutEarlierDuplicates rem)
  · intro order
    exact traversal_congr _ _ order (sameLookups_withoutEarlierDuplicates loc)
  · intro order
    exact traversal_congr _ _ order (sameLookups_withoutEarlierDuplicates rem)
  · exact noDuplicates_withoutEarlierDuplicates loc
  · exact noDuplicates_withoutEarlierDuplicates rem

end Syncthing

namespace Syncthing

/-! The order of a message without duplicates -/

/-- C17 at a message that lists a repository twice and a node twice: only the
second entry of the repository and the second flags of the node are kept. -/
theorem last_occurrence_wins_witness :
    cmMap duplicateConfig = [("repoA", [("node2", 2)])] ∧
    withoutEarlierDuplicates duplicateConfig
      = { Repositories := [{ ID := "repoA", Nodes := [{ ID := "node2", Flags := 2 }] }] } ∧
    compareClusterConfig 255 (withoutEarlierDuplicates duplicateConfig)
        (withoutEarlierDuplicates sampleConfig) (cmMap duplicateConfig) (cmMap sampleConfig)
      = compareClusterConfig 255 duplicateConfig sampleConfig (cmMap duplicateConfig)
          (cmMap sampleConfig) :=
  ⟨by decide, by decide,
    (last_occurrence_wins 255 duplicateConfig sampleConfig).2.2.1 (cmMap duplicateConfig)
      (cmMap sampleConfig)⟩

theorem lastWith_of_nodup {α : Type} (f : α → String) (l : List α) (k : String) (x : α)
    (hn : (l.map f).Nodup) (hx : x ∈ l) (hk : f x = k) :
    lastWith (fun y => decide (f y = k)) l = some x := by
  induction l with
  | nil => simp at hx
  | cons a rest ih =>
    simp only [List.map_cons, List.nodup_cons] at hn
    rcases List.mem_cons.1 hx with hxa | hxr
    · subst hxa
      have hnone : lastWith (fun y => decide (f y = k)) rest = none := by
        rw [lastWith_eq_none_iff]
        intro y hy
        simp only [decide_eq_false_iff_not]
        intro hyk
        apply hn.1
        rw [hk, ← hyk]
        exact List.mem_map.2 ⟨y, hy, rfl⟩
      simp [lastWith, hnone, hk]
    · simp [lastWith, ih hn.2 hxr]

theorem declaresRepo_cmMap_iff (cm : ClusterConfigMessage) (r : String) :
    declaresRepo (cmMap cm) r ↔ listsRepo cm r := by
  unfold declaresRepo listsRepo
  rw [mapGet_cmMap]
  cases hl : lastWith (fun x => decide (x.ID = r)) cm.Repositories with
  | none =>
    have hnone := (lastWith_eq_none_iff _ _).1 hl
    constructor
    · intro h
      cases h
    · rintro ⟨repo, hrepo, hid⟩
      have := hnone repo hrepo
      simp [hid] at this
  | some repo =>
    have hsome := lastWith_some _ _ _ hl
    simp only [Option.map_some', Option.isSome_some, true_iff]
    exact ⟨repo, hsome.1, by simpa using hsome.2⟩

/-- In a message without duplicates the flags that the map holds for a node are
the flags with which the message lists it. -/
theorem nodeFlags_cmMap_iff (cm : ClusterConfigMessage) (hd : noDuplicates cm) (r n : String)
    (f : Nat) : nodeFlags (cmMap cm) r n = some f ↔ listsNode cm r n f := by
  unfold nodeFlags listsNode
  rw [mapGet_cmMap]
  constructor
  · intro h
    cases hl : lastWith (fun x => decide (x.ID = r)) cm.Repositories with
    | none =>
      rw [hl] at h
      cases h
    | some repo =>
      rw [hl] at h
      simp only [Option.map_some', Option.some_bind, mapGet_nodeMap] at h
      have hrepo := lastWith_some _ _ _ hl
      cases hn : lastWith (fun x => decide (x.ID = n)) repo.Nodes with
      | none =>
        rw [hn] at h
        cases h
      | some node =>
        rw [hn] at h
        simp only [Option.map_some', Option.some.injEq] at h
        have hnode := lastWith_some _ _ _ hn
        exact ⟨repo, hrepo.1, by simpa using hrepo.2, node, hnode.1, by simpa using hnode.2, h⟩
  · rintro ⟨repo, hrepo, hid, node, hnode, hnid, hflags⟩
    rw [lastWith_of_nodup Repository.ID cm.Repositories r repo hd.1 hrepo hid]
    simp only [Option.map_some', Option.some_bind, mapGet_nodeMap]
    rw [lastWith_of_nodup Node.ID repo.Nodes n node (hd.2 repo hrepo) hnode hnid]
    simp [hflags]

theorem forall₂_mem_left {α β : Type} (R : α → β → Prop) (l : List α) (l' : List β)
    (h : List.Forall₂ R l l') (x : α) (hx : x ∈ l) : ∃ y ∈ l', R x y := by
  induction h with
  | nil => simp at hx
  | cons hab _ ih =>
    rcases List.mem_cons.1 hx with hx | hx
    · subst hx
      exact ⟨_, List.mem_cons_self _ _, hab⟩
    · obtain ⟨y, hy, hxy⟩ := ih hx
      exact ⟨y, List.mem_cons_of_mem _ hy, hxy⟩

theorem forall₂_mem_right {α β : Type} (R : α → β → Prop) (l : List α) (l' : List β)
    (h : List.Forall₂ R l l') (y : β) (hy : y ∈ l') : ∃ x ∈ l, R x y := by
  induction h with
  | nil => simp at hy
  | cons hab _ ih =>
    rcases List.mem_cons.1 hy with hy | hy
    · subst hy
      exact ⟨_, List.mem_cons_self _ _, hab⟩
    · obtain ⟨x, hx, hxy⟩ := ih hy
      exact ⟨x, List.mem_cons_of_mem _ hx, hxy⟩

theorem listsRepo_of_reordered (cm cm' : ClusterConfigMessage) (h : Reordered cm cm')
    (r : String) : listsRepo cm r ↔ listsRepo cm' r := by
  obtain ⟨p, hperm, hall⟩ := h
  constructor
  · rintro ⟨repo, hrepo, hid⟩
    obtain ⟨y, hy, hxy⟩ := forall₂_mem_left _ _ _ hall repo (hperm.mem_iff.1 hrepo)
    exact ⟨y, hy, hxy.1.symm.trans hid⟩
  · rintro ⟨repo, hrepo, hid⟩
    obtain ⟨x, hx, hxy⟩ := forall₂_mem_right _ _ _ hall repo hrepo
    exact ⟨x, hperm.mem_iff.2 hx, hxy.1.trans hid⟩

theorem listsNode_of_reordered (cm cm' : ClusterConfigMessage) (h : Reordered cm cm')
    (r n : String) (f : Nat) : listsNode cm r n f ↔ listsNode cm' r n f := by
  obtain ⟨p, hperm, hall⟩ := h
  constructor
  · rintro ⟨repo, hrepo, hid, node, hnode, hn⟩
    obtain ⟨y, hy, hxy⟩ := forall₂_mem_left _ _ _ hall repo (hperm.mem_iff.1 hrepo)
    exact ⟨y, hy, hxy.1.symm.trans hid, node, hxy.2.mem_iff.1 hnode, hn⟩
  · rintro ⟨repo, hrepo, hid, node, hnode, hn⟩
    obtain ⟨x, hx, hxy⟩ := forall₂_mem_right _ _ _ hall repo hrepo
    exact ⟨x, hperm.mem_iff.2 hx, hxy.1.trans hid, node, hxy.2.mem_iff.2 hnode, hn⟩

theorem ids_of_forall₂ (p l : List Repository)
    (h : List.Forall₂ (fun x y => x.ID = y.ID ∧ List.Perm x.Nodes y.Nodes) p l) :
    p.map Repository.ID = l.map Repository.ID := by
  induction h with
  | nil => rfl
  | cons hab _ ih => simp only [List.map_cons, hab.1, ih]

/-- A message that lists the entries of a message without duplicates in
another order has no duplicates either. -/
theorem noDuplicates_of_reordered (cm cm' : ClusterConfigMessage) (h : Reordered cm cm')
    (hd : noDuplicates cm) : noDuplicates cm' := by
  obtain ⟨p, hperm, hall⟩ := h
  constructor
  · rw [← ids_of_forall₂ p _ hall]
    exact ((hperm.map Repository.ID).nodup_iff).1 hd.1
  · intro repo hrepo
    obtain ⟨x, hx, hxy⟩ := forall₂_mem_right _ _ _ hall repo hrepo
    exact ((hxy.2.map Node.ID).nodup_iff).1 (hd.2 x (hperm.mem_iff.2 hx))

/-- Listing the entries of a message without duplicates in another order
changes no lookup in its map. -/
theorem sameLookups_of_reordered (cm cm' : ClusterConfigMessage) (h : Reordered cm cm')
    (hd : noDuplicates cm) : sameLookups (cmMap cm) (cmMap cm') := by
  have hd' := noDuplicates_of_reordered cm cm' h hd
  constructor
  · intro r
    rw [declaresRepo_cmMap_iff, declaresRepo_cmMap_iff]
    exact listsRepo_of_reordered cm cm' h r
  · intro r n
    apply Option.ext
    intro f
    simp only [Option.mem_def]
    rw [nodeFlags_cmMap_iff cm hd, nodeFlags_cmMap_iff cm' hd']
    exact listsNode_of_reordered cm cm' h r n f

theorem viewsAgree_congr (share : Nat) (lm lm' rm rm' : RepoMap) (hl : sameLookups lm lm')
    (hr : sameLookups rm rm') : viewsAgree share lm rm ↔ viewsAgree share lm' rm' := by
  unfold viewsAgree declaresNode
  simp only [hl.1, hl.2, hr.1, hr.2]

/-- C18: for messages without duplicate repository or node IDs, whether
compareClusterConfig returns nil does not depend on the order in which the
repositories or the nodes are listed in either message: listing the
repositories of local or remote, or the nodes of any repository, in another
order leaves the verdict unchanged, whatever the orders in which the maps are
visited. -/
theorem verdict_order_independent (share : Nat) (loc rem loc' rem' : ClusterConfigMessage)
    (lorder rorder lorder' rorder' : RepoMap)
    (hdl : noDuplicates loc) (hdr : noDuplicates rem)
    (hpl : Reordered loc loc') (hpr : Reordered rem rem')
    (hl : Traversal (cmMap loc) lorder) (hr : Traversal (cmMap rem) rorder)
    (hl' : Traversal (cmMap loc') lorder') (hr' : Traversal (cmMap rem') rorder') :
    compareClusterConfig share loc rem lorder rorder = none ↔
      compareClusterConfig share loc' rem' lorder' rorder' = none := by
  unfold compareClusterConfig
  rw [compareMaps_eq_none_iff share (cmMap loc) (cmMap rem) lorder rorder hl hr
      (cmMap_values_nodup loc),
    compareMaps_eq_none_iff share (cmMap loc') (cmMap rem') lorder' rorder' hl' hr'
      (cmMap_values_nodup loc')]
  exact viewsAgree_congr share _ _ _ _ (sameLookups_of_reordered loc loc' hpl hdl)
    (sameLookups_of_reordered rem rem' hpr hdr)

/-- C18 at a pair of two repositories, listed in the other order with the
nodes of one repository swapped on one side. -/
theorem verdict_order_independent_witness :
    (compareClusterConfig 255 sampleConfigTwoRepos sampleConfigTwoRepos
        (cmMap sampleConfigTwoRepos) (cmMap sampleConfigTwoRepos) = none ↔
      compareClusterConfig 255 sampleConfigTwoReposReordered sampleConfigTwoRepos
        (cmMap sampleConfigTwoReposReordered) (cmMap sampleConfigTwoRepos) = none) ∧
    compareClusterConfig 255 sampleConfigTwoReposReordered sampleConfigTwoRepos
      (cmMap sampleConfigTwoReposReordered) (cmMap sampleConfigTwoRepos) = none := by
  have hre : Reordered sampleConfigTwoRepos sampleConfigTwoReposReordered :=
    ⟨[{ ID := "repoB", Nodes := [{ ID := "node3", Flags := 1 }] },
        { ID := "repoA", Nodes := [{ ID := "node1", Flags := 1 }, { ID := "node2", Flags := 1 }] }],
      List.Perm.swap _ _ _,
      List.Forall₂.cons ⟨rfl, List.Perm.refl _⟩
        (List.Forall₂.cons ⟨rfl, List.Perm.swap _ _ _⟩ List.Forall₂.nil)⟩
  have hid : Reordered sampleConfigTwoRepos sampleConfigTwoRepos :=
    ⟨sampleConfigTwoRepos.Repositories, List.Perm.refl _,
      List.Forall₂.cons ⟨rfl, List.Perm.refl _⟩
        (List.Forall₂.cons ⟨rfl, List.Perm.refl _⟩ List.Forall₂.nil)⟩
  exact ⟨verdict_order_independent 255 sampleConfigTwoRepos sampleConfigTwoRepos
    sampleConfigTwoReposReordered sampleConfigTwoRepos (cmMap sampleConfigTwoRepos)
    (cmMap sampleConfigTwoRepos) (cmMap sampleConfigTwoReposReordered)
    (cmMap sampleConfigTwoRepos) (by decide) (by decide) hre hid
    (traversal_refl _ (cmMap_keys_nodup _)) (traversal_refl _ (cmMap_keys_nodup _))
    (traversal_refl _ (cmMap_keys_nodup _)) (traversal_refl _ (cmMap_keys_nodup _)),
    by decide⟩

end Syncthing

namespace Syncthing

/-! The verdict and what the messages declare -/

/-- The flags that the map of a message holds for a node are the flags that
the message declares for it. -/
theorem nodeFlags_cmMap (cm : ClusterConfigMessage) (r n : String) :
    nodeFlags (cmMap cm) r n = declaredFlags cm r n := by
  unfold nodeFlags declaredFlags
  rw [mapGet_cmMap]
  cases lastWith (fun x => decide (x.ID = r)) cm.Repositories with
  | none => rfl
  | some repo =>
    simp only [Option.map_some', Option.some_bind]
    exact mapGet_nodeMap repo.Nodes n

/-- Flags that a message declares for a node are flags with which it lists the
node. -/
theorem listsNode_of_declaredFlags (cm : ClusterConfigMessage) (r n : String) (f : Nat)
    (h : declaredFlags cm r n = some f) : listsNode cm r n f := by
  unfold declaredFlags at h
  cases hl : lastWith (fun x => decide (x.ID = r)) cm.Repositories with
  | none =>
    rw [hl] at h
    cases h
  | some repo =>
    rw [hl] at h
    simp only [Option.some_bind] at h
    have hrepo := lastWith_some _ _ _ hl
    cases hn : lastWith (fun x => decide (x.ID = n)) repo.Nodes with
    | none =>
      rw [hn] at h
      cases h
    | some node =>
      rw [hn] at h
      simp only [Option.map_some', Option.some.injEq] at h
      have hnode := lastWith_some _ _ _ hn
      exact ⟨repo, hrepo.1, by simpa using hrepo.2, node, hnode.1, by simpa using hnode.2, h⟩

/-- In a message without duplicates the declared flags of a node are the flags
with which the message lists it. -/
theorem declaredFlags_iff_listsNode (cm : ClusterConfigMessage) (hd : noDuplicates cm)
    (r n : String) (f : Nat) : declaredFlags cm r n = some f ↔ listsNode cm r n f := by
  rw [← nodeFlags_cmMap]
  exact nodeFlags_cmMap_iff cm hd r n f

/-- The maps of two messages agree exactly when the messages agree. -/
theorem viewsAgree_iff_messagesAgree (share : Nat) (loc rem : ClusterConfigMessage) :
    viewsAgree share (cmMap loc) (cmMap rem) ↔ messagesAgree share loc rem := by
  unfold viewsAgree messagesAgree sameDeclarations declaresNode
  simp only [declaresRepo_cmMap_iff, nodeFlags_cmMap, and_assoc]

/-- Two flag words differ only outside `share` exactly when their bits inside
`share` are the same. -/
theorem differOutside_iff (share lf rf : Nat) :
    differOutside share lf rf ↔ lf &&& share = rf &&& share := by
  unfold differOutside
  constructor
  · intro h
    apply Nat.eq_of_testBit_eq
    intro i
    rw [Nat.testBit_and, Nat.testBit_and]
    by_cases hi : lf.testBit i = rf.testBit i
    · rw [hi]
    · rw [h i hi]
      simp
  · intro h i hi
    have hbit : (lf &&& share).testBit i = (rf &&& share).testBit i := by rw [h]
    rw [Nat.testBit_and, Nat.testBit_and] at hbit
    cases hs : share.testBit i with
    | false => rfl
    | true =>
      rw [hs] at hbit
      simp only [Bool.and_true] at hbit
      exact absurd hbit hi

/-- C4: for every pair of cluster config messages, and whatever the order in
which the maps are visited, compareClusterConfig(local, remote) returns nil if
and only if the two messages agree in their normalised views: they declare the
same repository IDs, for every repository the same node IDs, and for every
such node the same share bits (flags AND FlagShareBits); what a message
declares is read off the message (the last entry of an ID), and is what its
map holds. -/
theorem compare_nil_iff_agree (share : Nat) (loc rem : ClusterConfigMessage)
    (lorder rorder : RepoMap) (hl : Traversal (cmMap loc) lorder)
    (hr : Traversal (cmMap rem) rorder) :
    (compareClusterConfig share loc rem lorder rorder = none ↔ messagesAgree share loc rem) ∧
    (messagesAgree share loc rem ↔ viewsAgree share (cmMap loc) (cmMap rem)) ∧
    (∀ r, declaresRepo (cmMap loc) r ↔ listsRepo loc r) ∧
    (∀ r n, nodeFlags (cmMap loc) r n = declaredFlags loc r n) := by
  refine ⟨?_, (viewsAgree_iff_messagesAgree share loc rem).symm, declaresRepo_cmMap_iff loc,
    nodeFlags_cmMap loc⟩
  rw [← viewsAgree_iff_messagesAgree]
  exact compareMaps_eq_none_iff share (cmMap loc) (cmMap rem) lorder rorder hl hr
    (cmMap_values_nodup loc)

/-- C4 at the configuration of the spec: against the same nodes with other
bits outside the share bits the outcome is nil and the messages agree; against
the configuration without the second node the outcome is not nil and the
messages do not agree, the second node being declared on one side only. -/
theorem compare_nil_iff_agree_witness :
    compareClusterConfig 255 sampleConfig sampleConfigSwapped (cmMap sampleConfig)
      (cmMap sampleConfigSwapped) = none ∧
    messagesAgree 255 sampleConfig sampleConfigSwapped ∧
    compareClusterConfig 255 sampleConfig sampleConfigOneNode (cmMap sampleConfig)
      (cmMap sampleConfigOneNode) = some (Mismatch.missingNode "node2" "repoA") ∧
    ¬ messagesAgree 255 sampleConfig sampleConfigOneNode ∧
    declaredFlags sampleConfig "repoA" "node2" = some 1 ∧
    declaredFlags sampleConfigOneNode "repoA" "node2" = none := by
  have h1 := (compare_nil_iff_agree 255 sampleConfig sampleConfigSwapped (cmMap sampleConfig)
    (cmMap sampleConfigSwapped) (traversal_refl _ (cmMap_keys_nodup _))
    (traversal_refl _ (cmMap_keys_nodup _))).1
  have h2 := (compare_nil_iff_agree 255 sampleConfig sampleConfigOneNode (cmMap sampleConfig)
    (cmMap sampleConfigOneNode) (traversal_refl _ (cmMap_keys_nodup _))
    (traversal_refl _ (cmMap_keys_nodup _))).1
  refine ⟨by decide, h1.1 (by decide), by decide, ?_, by decide, by decide⟩
  intro hagree
  have hnone := h2.2 hagree
  revert hnone
  decide

/-- C9: for every pair of messages that declare the same repositories and
nodes and whose node flags differ only in bits outside FlagShareBits,
compareClusterConfig returns nil, whatever the order in which the entries are
listed and the maps are visited; and different sharing flags are reported only
for a node that both declare with different share bits, flags that do not
differ outside FlagShareBits only. -/
theorem other_bits_ignored (share : Nat) (loc rem : ClusterConfigMessage)
    (lorder rorder : RepoMap) (hl : Traversal (cmMap loc) lorder)
    (hr : Traversal (cmMap rem) rorder) :
    (sameDeclarations loc rem →
      (∀ r n lf rf, declaredFlags loc r n = some lf → declaredFlags rem r n = some rf →
        differOutside share lf rf) →
      compareClusterConfig share loc rem lorder rorder = none) ∧
    ∀ n r, compareClusterConfig share loc rem lorder rorder = some (Mismatch.differentFlags n r) →
      ∃ lf rf, declaredFlags loc r n = some lf ∧ declaredFlags rem r n = some rf ∧
        lf &&& share ≠ rf &&& share ∧ ¬ differOutside share lf rf := by
  constructor
  · intro hsame hbits
    apply (compareMaps_eq_none_iff share (cmMap loc) (cmMap rem) lorder rorder hl hr
      (cmMap_values_nodup loc)).2
    rw [viewsAgree_iff_messagesAgree]
    exact ⟨hsame, fun r n lf rf hlf hrf =>
      (differOutside_iff share lf rf).1 (hbits r n lf rf hlf hrf)⟩
  · intro n r h
    obtain ⟨lf, rf, hlf, hrf, hne⟩ := compareMaps_exhibits share (cmMap loc) (cmMap rem) lorder
      rorder hl hr (cmMap_values_nodup loc) _ h
    rw [nodeFlags_cmMap] at hlf hrf
    exact ⟨lf, rf, hlf, hrf, hne, fun hd => hne ((differOutside_iff share lf rf).1 hd)⟩

end Syncthing

namespace Syncthing

/-- C9 at the configuration of the spec, the share bits being the low byte:
against the same repository with its nodes listed in the other order and with
other bits outside the low byte nothing is reported; against the same nodes
with the other share bit for the first node the different sharing flags of
that node are reported, and its share bits differ. -/
theorem other_bits_ignored_witness :
    shareView 255 sampleConfig ≠ shareView 255 sampleConfigSwapped ∧
    declaredFlags sampleConfig "repoA" "node1" = some 1 ∧
    declaredFlags sampleConfigSwapped "repoA" "node1" = some 257 ∧
    compareClusterConfig 255 sampleConfig sampleConfigSwapped (cmMap sampleConfig)
      (cmMap sampleConfigSwapped) = none ∧
    compareClusterConfig 255 sampleConfig sampleConfigConflict (cmMap sampleConfig)
      (cmMap sampleConfigConflict) = some (Mismatch.differentFlags "node1" "repoA") ∧
    ∃ lf rf, declaredFlags sampleConfig "repoA" "node1" = some lf ∧
      declaredFlags sampleConfigConflict "repoA" "node1" = some rf ∧
      lf &&& 255 ≠ rf &&& 255 ∧ ¬ differOutside 255 lf rf := by
  have hloc : ∀ r n f, declaredFlags sampleConfig r n = some f →
      r = "repoA" ∧ ((n = "node1" ∧ f = 1) ∨ (n = "node2" ∧ f = 1)) := by
    intro r n f h
    have hl := listsNode_of_declaredFlags _ r n f h
    simp only [listsNode, sampleConfig, List.mem_singleton, exists_eq_left, List.mem_cons,
      List.not_mem_nil, or_false, exists_eq_or_imp] at hl
    obtain ⟨hr, hn⟩ := hl
    refine ⟨hr.symm, ?_⟩
    rcases hn with ⟨h1, h2⟩ | ⟨h1, h2⟩
    · exact Or.inl ⟨h1.symm, h2.symm⟩
    · exact Or.inr ⟨h1.symm, h2.symm⟩
  have hrem : ∀ r n f, declaredFlags sampleConfigSwapped r n = some f →
      r = "repoA" ∧ ((n = "node2" ∧ f = 513) ∨ (n = "node1" ∧ f = 257)) := by
    intro r n f h
    have hl := listsNode_of_declaredFlags _ r n f h
    simp only [listsNode, sampleConfigSwapped, List.mem_singleton, exists_eq_left,
      List.mem_cons, List.not_mem_nil, or_false, exists_eq_or_imp] at hl
    obtain ⟨hr, hn⟩ := hl
    refine ⟨hr.symm, ?_⟩
    rcases hn with ⟨h1, h2⟩ | ⟨h1, h2⟩
    · exact Or.inl ⟨h1.symm, h2.symm⟩
    · exact Or.inr ⟨h1.symm, h2.symm⟩
  have hsame : sameDeclarations sampleConfig sampleConfigSwapped := by
    constructor
    · intro r
      simp [listsRepo, sampleConfig, sampleConfigSwapped]
    · intro r n
      constructor
      · intro h
        obtain ⟨f, hf⟩ := Option.isSome_iff_exists.1 h
        obtain ⟨hr, hn⟩ := hloc r n f hf
        subst hr
        rcases hn with ⟨hn, _⟩ | ⟨hn, _⟩ <;> subst hn <;> decide
      · intro h
        obtain ⟨f, hf⟩ := Option.isSome_iff_exists.1 h
        obtain ⟨hr, hn⟩ := hrem r n f hf
        subst hr
        rcases hn with ⟨hn, _⟩ | ⟨hn, _⟩ <;> subst hn <;> decide
  have hbits : ∀ r n lf rf, declaredFlags sampleConfig r n = some lf →
      declaredFlags sampleConfigSwapped r n = some rf → differOutside 255 lf rf := by
    intro r n lf rf hlf hrf
    obtain ⟨_, hl⟩ := hloc r n lf hlf
    obtain ⟨_, hr⟩ := hrem r n rf hrf
    rw [differOutside_iff]
    rcases hl with ⟨_, hl⟩ | ⟨_, hl⟩ <;> rcases hr with ⟨_, hr⟩ | ⟨_, hr⟩ <;>
      subst hl <;> subst hr <;> decide
  exact ⟨by decide, by decide, by decide,
    (other_bits_ignored 255 sampleConfig sampleConfigSwapped (cmMap sampleConfig)
      (cmMap sampleConfigSwapped) (traversal_refl _ (cmMap_keys_nodup _))
      (traversal_refl _ (cmMap_keys_nodup _))).1 hsame hbits,
    by decide,
    (other_bits_ignored 255 sampleConfig sampleConfigConflict (cmMap sampleConfig)
      (cmMap sampleConfigConflict) (traversal_refl _ (cmMap_keys_nodup _))
      (traversal_refl _ (cmMap_keys_nodup _))).2 "node1" "repoA" (by decide)⟩

end Syncthing
